import Mathlib

/-!
Verification of the lossless syntax-tree subsystem (`src/rowan/src/lib.rs`):
tokenizer, green-tree builder, recursive-descent parser with checkpoints,
and the incremental reparser.  The tokenizer and parser are translated
directly from the Rust source; the `GreenNodeBuilder` they drive comes from
the external `rowan` dependency and is modelled from the specification's
builder contract (frame stack with checkpoints).
-/

/-- The `SyntaxKind` enum, copied constructor-for-constructor from the source. -/
inductive SyntaxKind where
  | Whitespace
  | Comment
  | Ident
  | Number
  | String
  | Plus
  | Minus
  | Star
  | Slash
  | Eq
  | Neq
  | Lt
  | Gt
  | LParen
  | RParen
  | LBrace
  | RBrace
  | Semicolon
  | Comma
  | Keyword
  | Error
  | Root
  | BinaryExpr
  | UnaryExpr
  | ParenExpr
  | Literal
  | BlockStmt
  | ExprStmt
  | LetStmt
  | IfStmt
  | WhileStmt
  | ReturnStmt
  | FnDef
  | ParamList
  | TypeRef
  | Path
  | CallExpr
  | ArgList
  deriving DecidableEq, Repr

/-- `{:?}` rendering of a kind, as produced by Rust's derived `Debug`
(used in `Parser::error` messages via `format!("Expected {:?}", expected)`). -/
def kindName : SyntaxKind → String
  | .Whitespace => "Whitespace"
  | .Comment => "Comment"
  | .Ident => "Ident"
  | .Number => "Number"
  | .String => "String"
  | .Plus => "Plus"
  | .Minus => "Minus"
  | .Star => "Star"
  | .Slash => "Slash"
  | .Eq => "Eq"
  | .Neq => "Neq"
  | .Lt => "Lt"
  | .Gt => "Gt"
  | .LParen => "LParen"
  | .RParen => "RParen"
  | .LBrace => "LBrace"
  | .RBrace => "RBrace"
  | .Semicolon => "Semicolon"
  | .Comma => "Comma"
  | .Keyword => "Keyword"
  | .Error => "Error"
  | .Root => "Root"
  | .BinaryExpr => "BinaryExpr"
  | .UnaryExpr => "UnaryExpr"
  | .ParenExpr => "ParenExpr"
  | .Literal => "Literal"
  | .BlockStmt => "BlockStmt"
  | .ExprStmt => "ExprStmt"
  | .LetStmt => "LetStmt"
  | .IfStmt => "IfStmt"
  | .WhileStmt => "WhileStmt"
  | .ReturnStmt => "ReturnStmt"
  | .FnDef => "FnDef"
  | .ParamList => "ParamList"
  | .TypeRef => "TypeRef"
  | .Path => "Path"
  | .CallExpr => "CallExpr"
  | .ArgList => "ArgList"

/-- `rowan::TextRange`, a half-open byte range. -/
structure TextRange where
  start : Nat
  stop : Nat
  deriving DecidableEq, Repr

/-- `TextRange::empty(offset)`: the zero-width range at `offset`. -/
def TextRange.emptyAt (off : Nat) : TextRange := ⟨off, off⟩

/-- `ParseError { message, range }` from the source. -/
structure ParseError where
  message : String
  range : TextRange
  deriving DecidableEq, Repr

/-- `Token { kind, text, offset }` from the source; text is the list of
chars, offset the byte offset of the token start (`TextSize` as `Nat`). -/
structure Token where
  kind : SyntaxKind
  text : List Char
  offset : Nat
  deriving DecidableEq, Repr

/-! ## Character classes used by `tokenize` -/

/-- Rust `char::is_whitespace` (the Unicode `White_Space` property),
used for whitespace-run continuation in `tokenize`. -/
def rustIsWhitespace (c : Char) : Bool :=
  decide (c.toNat = 0x09 ∨ c.toNat = 0x0A ∨ c.toNat = 0x0B ∨ c.toNat = 0x0C ∨
    c.toNat = 0x0D ∨ c.toNat = 0x20 ∨ c.toNat = 0x85 ∨ c.toNat = 0xA0 ∨
    c.toNat = 0x1680 ∨ (0x2000 ≤ c.toNat ∧ c.toNat ≤ 0x200A) ∨
    c.toNat = 0x2028 ∨ c.toNat = 0x2029 ∨ c.toNat = 0x202F ∨
    c.toNat = 0x205F ∨ c.toNat = 0x3000)

/-- Rust `char::is_ascii_digit`. -/
def isAsciiDigit (c : Char) : Bool := decide ('0' ≤ c ∧ c ≤ '9')

/-- Rust `char::is_ascii_alphabetic`. -/
def isAsciiAlpha (c : Char) : Bool :=
  decide (('a' ≤ c ∧ c ≤ 'z') ∨ ('A' ≤ c ∧ c ≤ 'Z'))

/-- Rust `char::is_ascii_alphanumeric`. -/
def isAsciiAlnum (c : Char) : Bool := isAsciiAlpha c || isAsciiDigit c

/-- Identifier-continuation test from `tokenize`:
`next.is_ascii_alphanumeric() || next == '_'`. -/
def identCont (c : Char) : Bool := isAsciiAlnum c || decide (c = '_')

/-- Comment continuation: `next != '\n'`. -/
def notNewline (c : Char) : Bool := decide (¬ c = '\n')

/-- String continuation (scan up to the closing quote): `next != '"'`. -/
def notQuote (c : Char) : Bool := decide (¬ c = '"')

/-- `ch.len_utf8()` / `TextSize::of(ch)`: the UTF-8 byte length of a char. -/
def utf8Len (c : Char) : Nat :=
  if c.toNat < 0x80 then 1
  else if c.toNat < 0x800 then 2
  else if c.toNat < 0x10000 then 3
  else 4

/-- UTF-8 byte length of a char list. -/
def utf8LenL (t : List Char) : Nat := t.foldr (fun c acc => utf8Len c + acc) 0

/-- The keyword table from `tokenize`. -/
def keywords : List (List Char) :=
  ["let".data, "if".data, "else".data, "while".data, "for".data, "fn".data,
   "return".data, "true".data, "false".data, "struct".data, "enum".data,
   "impl".data]

/-! ## The tokenizer -/

/-- One iteration of the `tokenize` loop: `c` is the char just pulled from
the iterator, `cs` the chars still in it.  Returns the token's kind, its
text, and the chars left after the token.  Branches mirror the Rust `match`
arm for arm (the lone `'!'` falls through to the catch-all `Error` arm). -/
def scanOne (c : Char) (cs : List Char) : SyntaxKind × List Char × List Char :=
  if c = ' ' ∨ c = '\t' ∨ c = '\n' ∨ c = '\r' then
    (.Whitespace, c :: cs.takeWhile rustIsWhitespace, cs.dropWhile rustIsWhitespace)
  else if c = '/' then
    match cs with
    | '/' :: rest =>
        (.Comment, '/' :: '/' :: rest.takeWhile notNewline, rest.dropWhile notNewline)
    | _ => (.Slash, ['/'], cs)
  else if c = '+' then (.Plus, ['+'], cs)
  else if c = '-' then (.Minus, ['-'], cs)
  else if c = '*' then (.Star, ['*'], cs)
  else if c = '=' then
    match cs with
    | '=' :: rest => (.Eq, ['=', '='], rest)
    | _ => (.Eq, ['='], cs)
  else if c = '!' then
    match cs with
    | '=' :: rest => (.Neq, ['!', '='], rest)
    | _ => (.Error, [c], cs)
  else if c = '<' then (.Lt, ['<'], cs)
  else if c = '>' then (.Gt, ['>'], cs)
  else if c = '(' then (.LParen, ['('], cs)
  else if c = ')' then (.RParen, [')'], cs)
  else if c = '\x7b' then (.LBrace, ['\x7b'], cs)
  else if c = '\x7d' then (.RBrace, ['\x7d'], cs)
  else if c = ';' then (.Semicolon, [';'], cs)
  else if c = ',' then (.Comma, [','], cs)
  else if c = '"' then
    match cs.dropWhile notQuote with
    | q :: rest => (.String, '"' :: (cs.takeWhile notQuote ++ [q]), rest)
    | [] => (.String, '"' :: cs.takeWhile notQuote, [])
  else if isAsciiDigit c then
    (.Number, c :: cs.takeWhile isAsciiDigit, cs.dropWhile isAsciiDigit)
  else if isAsciiAlpha c || decide (c = '_') then
    (if (c :: cs.takeWhile identCont) ∈ keywords then .Keyword else .Ident,
     c :: cs.takeWhile identCont, cs.dropWhile identCont)
  else (.Error, [c], cs)

/-- The `tokenize` loop with explicit fuel (each iteration consumes at least
one char, so fuel `length + 1` always suffices; see `tokenizeF_adequate`). -/
def tokenizeF : Nat → Nat → List Char → List Token
  | 0, _, _ => []
  | _ + 1, _, [] => []
  | fuel + 1, off, c :: cs =>
      let s := scanOne c cs
      ⟨s.1, s.2.1, off⟩ :: tokenizeF fuel (off + utf8LenL s.2.1) s.2.2

/-- `tokenize` on a char list. -/
def tokenizeL (cs : List Char) : List Token := tokenizeF (cs.length + 1) 0 cs

/-- `pub fn tokenize(input: &str) -> Vec<Token>`. -/
def tokenize (s : String) : List Token := tokenizeL s.data

/-! ## Green tree and builder

The green tree and `GreenNodeBuilder` live in the external `rowan` crate,
not in this repository's sources; they are modelled here from the
specification's data model (§3) and builder contract (§4.3). -/

mutual
/-- Modelled from the spec: `GreenElement = GreenToken | GreenNode` — a leaf
carries `(kind, text)`, an interior node `(kind, ordered children)`
(spec §3, GreenToken/GreenNode). -/
inductive GreenElement where
  | tk (kind : SyntaxKind) (text : List Char)
  | nd (kind : SyntaxKind) (children : GreenList)
  deriving DecidableEq, Repr

inductive GreenList where
  | nil
  | cons (e : GreenElement) (es : GreenList)
  deriving DecidableEq, Repr
end

/-- Append one element at the end of a child list. -/
def GreenList.push : GreenList → GreenElement → GreenList
  | .nil, x => .cons x .nil
  | .cons e es, x => .cons e (es.push x)

def GreenList.length : GreenList → Nat
  | .nil => 0
  | .cons _ es => es.length + 1

def GreenList.take : Nat → GreenList → GreenList
  | 0, _ => .nil
  | _, .nil => .nil
  | n + 1, .cons e es => .cons e (es.take n)

def GreenList.drop : Nat → GreenList → GreenList
  | 0, l => l
  | _, .nil => .nil
  | n + 1, .cons _ es => es.drop n

mutual
/-- Concatenated leaf text of a green element / child list (the text a
red cursor's `text()` reconstructs). -/
def GreenElement.textOf : GreenElement → List Char
  | .tk _ t => t
  | .nd _ cs => cs.textOf

def GreenList.textOf : GreenList → List Char
  | .nil => []
  | .cons e es => e.textOf ++ es.textOf
end

/-- Build a `GreenList` from a `List` (notation helper for concrete trees). -/
def gl : List GreenElement → GreenList
  | [] => .nil
  | e :: es => .cons e (gl es)

/-- Modelled from the spec: one in-progress builder frame — the pending kind
assigned when the frame was opened plus the accumulated ordered list of
finished children (spec §3, Builder state). -/
structure BFrame where
  kind : SyntaxKind
  children : GreenList
  deriving DecidableEq, Repr

/-- Modelled from the spec: the `GreenNodeBuilder` state — a stack of open
frames (innermost first), the completed root once the last frame is
finished, and a sticky flag recording misuse of the builder API
(the structural/programmer errors of spec §7, a panic in the
implementation). -/
structure Builder where
  stack : List BFrame
  root : Option GreenElement
  bad : Bool
  deriving DecidableEq, Repr

def Builder.empty : Builder := ⟨[], none, false⟩

/-- Modelled from the spec: `start_node(kind)` pushes a new open frame
(spec §4.3). -/
def Builder.startNode (k : SyntaxKind) (b : Builder) : Builder :=
  { b with stack := ⟨k, .nil⟩ :: b.stack }

/-- Modelled from the spec: `token(kind, text)` appends a leaf to the current
open frame (spec §4.3); with no open frame this is builder misuse. -/
def Builder.addToken (k : SyntaxKind) (t : List Char) (b : Builder) : Builder :=
  match b.stack with
  | [] => { b with bad := true }
  | f :: fs => { b with stack := { f with children := f.children.push (.tk k t) } :: fs }

/-- Modelled from the spec: `finish_node()` pops the current frame,
materializes it into a green node and appends it to the new top frame, or
records it as the completed root when the stack empties (spec §4.3). -/
def Builder.finishNode (b : Builder) : Builder :=
  match b.stack with
  | [] => { b with bad := true }
  | f :: fs =>
      let node := GreenElement.nd f.kind f.children
      match fs with
      | [] => { b with stack := [], root := some node }
      | g :: gs => { b with stack := { g with children := g.children.push node } :: gs }

/-- Modelled from the spec: `checkpoint()` records the current top frame's
child count (spec §4.3). -/
def Builder.checkpoint (b : Builder) : Nat :=
  match b.stack with
  | [] => 0
  | f :: _ => f.children.length

/-- Modelled from the spec: `start_node_at(checkpoint, kind)` opens a new
frame whose children are the items of the top frame from the checkpoint
index to the end, moved into the new frame (spec §4.3); a checkpoint past
the current end is no longer valid — builder misuse. -/
def Builder.startNodeAt (cp : Nat) (k : SyntaxKind) (b : Builder) : Builder :=
  match b.stack with
  | [] => { b with bad := true }
  | f :: fs =>
      if cp ≤ f.children.length then
        { b with stack := ⟨k, f.children.drop cp⟩ :: ⟨f.kind, f.children.take cp⟩ :: fs }
      else { b with bad := true }

/-- Modelled from the spec: `finish()` returns the completed root; open
frames left on the stack, a missing root, or earlier misuse are
programmer errors — a panic, modelled as `none` (spec §4.3, §7). -/
def Builder.finishAll (b : Builder) : Option GreenElement :=
  if b.bad then none
  else match b.stack, b.root with
    | [], some r => some r
    | _, _ => none

/-! ## Parser state and primitive operations

`Parser { builder, errors, tokens, cursor }`: the token vector is fixed for
a whole parse, so it is a parameter `T`; the mutable rest is `PState`. -/

structure PState where
  cursor : Nat
  bld : Builder
  errors : List ParseError
  deriving DecidableEq, Repr

/-- `self.tokens.get(self.cursor)`. -/
def curTok (T : List Token) (st : PState) : Option Token := T.get? st.cursor

/-- `Parser::current_kind`. -/
def curKind (T : List Token) (st : PState) : Option SyntaxKind :=
  (curTok T st).map (·.kind)

/-- `Parser::current_text`. -/
def curText (T : List Token) (st : PState) : Option (List Char) :=
  (curTok T st).map (·.text)

/-- `Parser::at(kind)`. -/
abbrev atKind (T : List Token) (st : PState) (k : SyntaxKind) : Prop :=
  curKind T st = some k

/-- `at(Whitespace) || at(Comment)`, the trivia test. -/
abbrev atTriv (T : List Token) (st : PState) : Prop :=
  atKind T st .Whitespace ∨ atKind T st .Comment

/-- `Parser::at_end`. -/
abbrev atEnd (T : List Token) (st : PState) : Prop := T.length ≤ st.cursor

/-- `Parser::at_keyword(kw)`. -/
abbrev atKw (T : List Token) (st : PState) (w : List Char) : Prop :=
  atKind T st .Keyword ∧ curText T st = some w

/-- `Parser::advance`: bump the cursor unless already past the last token. -/
def advance (T : List Token) (st : PState) : PState :=
  if st.cursor < T.length then { st with cursor := st.cursor + 1 } else st

/-- `Parser::error(message)`: record a diagnostic with an empty range at the
current token's offset, or at offset 0 when past the end. -/
def pushError (T : List Token) (st : PState) (msg : String) : PState :=
  { st with errors :=
      st.errors ++ [⟨msg, TextRange.emptyAt (((curTok T st).map (·.offset)).getD 0)⟩] }

/-- Apply a builder operation to the state. -/
def withBld (f : Builder → Builder) (st : PState) : PState :=
  { st with bld := f st.bld }

/-- `Parser::consume(expected)`: on a kind match, emit the token into the
builder and advance; otherwise record `Expected {:?}` without advancing. -/
def consume (T : List Token) (k : SyntaxKind) (st : PState) : PState :=
  match curTok T st with
  | some tok =>
      if tok.kind = k then advance T (withBld (Builder.addToken k tok.text) st)
      else pushError T st ("Expected " ++ kindName k)
  | none => pushError T st ("Expected " ++ kindName k)

/-- `Parser::current_binary_op_precedence`. -/
def opPrec : Option SyntaxKind → Option Nat
  | some .Star => some 5
  | some .Slash => some 5
  | some .Plus => some 4
  | some .Minus => some 4
  | some .Lt => some 3
  | some .Gt => some 3
  | some .Eq => some 2
  | some .Neq => some 2
  | _ => none

/-- The eight kinds matched by the `if let` in `binary_expression`. -/
def isBinOpKind : SyntaxKind → Bool
  | .Plus | .Minus | .Star | .Slash | .Eq | .Neq | .Lt | .Gt => true
  | _ => false

/-- The `if let Some(k @ (Plus | ...)) = current_kind() { consume(k) }` step
of `binary_expression`: consume the current token when it is one of the
eight binary-operator kinds, otherwise do nothing. -/
def consumeIfBinOp (T : List Token) (st : PState) : PState :=
  match curKind T st with
  | some k => if isBinOpKind k then consume T k st else st
  | none => st

/-! ## The parser proper

Each (mutually) recursive `Parser` method, and each `while`/`loop` body,
becomes one constructor of `PCall`; `evalP` is the joint interpreter,
structurally recursive on explicit fuel (`none` = fuel exhausted; the
adequacy theorem `evalP_spec` shows a fuel of `16 * tokens + 16` is never
exhausted, i.e. the parser terminates). -/

inductive PCall where
  | parseLoop
  | statement
  | letStmt
  | ifStmt
  | whileStmt
  | returnStmt
  | fnDef
  | paramList
  | paramLoop
  | block
  | blockLoop
  | exprStmt
  | expression
  | binary (min : Nat)
  | binLoop (min : Nat)
  | unary
  | postfixExpr
  | postLoop
  | argList
  | argLoop
  | primary
  | trivia
  | skipTrivia
  | wsTrivia
  deriving DecidableEq, Repr

def evalP (T : List Token) : Nat → PCall → PState → Option PState
  | 0, _, _ => none
  | n + 1, c, st =>
    match c with
    | .trivia =>
        if atKind T st .Whitespace then evalP T n .trivia (consume T .Whitespace st)
        else if atKind T st .Comment then evalP T n .trivia (consume T .Comment st)
        else some st
    | .skipTrivia =>
        if atTriv T st then evalP T n .skipTrivia (advance T st)
        else some st
    | .wsTrivia =>
        if atKind T st .Whitespace then
          (evalP T n .trivia st).bind fun st1 =>
          evalP T n .wsTrivia st1
        else some st
    | .primary =>
        match curKind T st with
        | some .Number =>
            some (withBld .finishNode (consume T .Number (withBld (.startNode .Literal) st)))
        | some .String =>
            some (withBld .finishNode (consume T .String (withBld (.startNode .Literal) st)))
        | some .Ident => some (consume T .Ident st)
        | some .LParen =>
            let st1 := consume T .LParen (withBld (.startNode .ParenExpr) st)
            (evalP T n .wsTrivia st1).bind fun st2 =>
            (evalP T n .expression st2).bind fun st3 =>
            (evalP T n .wsTrivia st3).bind fun st4 =>
            some (withBld .finishNode (consume T .RParen st4))
        | _ => some (advance T (pushError T st "Expected expression"))
    | .postfixExpr =>
        (evalP T n .primary st).bind fun st1 =>
        evalP T n .postLoop st1
    | .postLoop =>
        if atKind T st .LParen then
          let st1 := withBld (.startNode .CallExpr) st
          let cp := st1.bld.checkpoint
          (evalP T n .argList st1).bind fun st2 =>
          evalP T n .postLoop (withBld .finishNode (withBld (.startNodeAt cp .CallExpr) st2))
        else some st
    | .argList =>
        let st1 := consume T .LParen (withBld (.startNode .ArgList) st)
        (evalP T n .skipTrivia st1).bind fun st2 =>
        (if atKind T st2 .RParen then some st2 else evalP T n .argLoop st2).bind fun st3 =>
        some (withBld .finishNode (consume T .RParen st3))
    | .argLoop =>
        (evalP T n .expression st).bind fun st1 =>
        (evalP T n .skipTrivia st1).bind fun st2 =>
        if atKind T st2 .Comma then
          (evalP T n .skipTrivia (consume T .Comma st2)).bind fun st4 =>
          evalP T n .argLoop st4
        else some st2
    | .unary =>
        if atKind T st .Minus then
          let st1 := consume T .Minus (withBld (.startNode .UnaryExpr) st)
          (evalP T n .wsTrivia st1).bind fun st2 =>
          (evalP T n .unary st2).bind fun st3 =>
          some (withBld .finishNode st3)
        else if atKind T st .Plus then
          let st1 := consume T .Plus (withBld (.startNode .UnaryExpr) st)
          (evalP T n .wsTrivia st1).bind fun st2 =>
          (evalP T n .unary st2).bind fun st3 =>
          some (withBld .finishNode st3)
        else evalP T n .postfixExpr st
    | .binary min =>
        (evalP T n .unary st).bind fun st1 =>
        (evalP T n .wsTrivia st1).bind fun st2 =>
        evalP T n (.binLoop min) st2
    | .binLoop min =>
        match opPrec (curKind T st) with
        | none => some st
        | some p =>
          if p < min then some st
          else
            let cp := st.bld.checkpoint
            let st1 := consumeIfBinOp T st
            (evalP T n .wsTrivia st1).bind fun st2 =>
            (evalP T n (.binary (p + 1)) st2).bind fun st3 =>
            evalP T n (.binLoop min)
              (withBld .finishNode (withBld (.startNodeAt cp .BinaryExpr) st3))
    | .expression => evalP T n (.binary 0) st
    | .exprStmt =>
        let st1 := withBld (.startNode .ExprStmt) st
        (evalP T n .expression st1).bind fun st2 =>
        (evalP T n .skipTrivia st2).bind fun st3 =>
        some (withBld .finishNode (consume T .Semicolon st3))
    | .letStmt =>
        let st1 := consume T .Keyword (withBld (.startNode .LetStmt) st)
        (evalP T n .skipTrivia st1).bind fun st2 =>
        (evalP T n .skipTrivia (consume T .Ident st2)).bind fun st4 =>
        ((if atKind T st4 .Eq then
            (evalP T n .skipTrivia (consume T .Eq st4)).bind fun b =>
            evalP T n .expression b
          else some st4) : Option PState).bind fun st5 =>
        (evalP T n .skipTrivia st5).bind fun st6 =>
        some (withBld .finishNode (consume T .Semicolon st6))
    | .ifStmt =>
        let st1 := consume T .Keyword (withBld (.startNode .IfStmt) st)
        (evalP T n .skipTrivia st1).bind fun st2 =>
        (evalP T n .expression st2).bind fun st3 =>
        (evalP T n .skipTrivia st3).bind fun st4 =>
        (evalP T n .block st4).bind fun st5 =>
        ((if atKw T st5 "else".data then
            (evalP T n .skipTrivia (consume T .Keyword st5)).bind fun b =>
            if atKw T b "if".data then evalP T n .ifStmt b
            else evalP T n .block b
          else some st5) : Option PState).bind fun st6 =>
        some (withBld .finishNode st6)
    | .whileStmt =>
        let st1 := consume T .Keyword (withBld (.startNode .WhileStmt) st)
        (evalP T n .skipTrivia st1).bind fun st2 =>
        (evalP T n .expression st2).bind fun st3 =>
        (evalP T n .skipTrivia st3).bind fun st4 =>
        (evalP T n .block st4).bind fun st5 =>
        some (withBld .finishNode st5)
    | .returnStmt =>
        let st1 := consume T .Keyword (withBld (.startNode .ReturnStmt) st)
        (evalP T n .skipTrivia st1).bind fun st2 =>
        (if atKind T st2 .Semicolon then some st2 else evalP T n .expression st2).bind fun st3 =>
        (evalP T n .skipTrivia st3).bind fun st4 =>
        some (withBld .finishNode (consume T .Semicolon st4))
    | .fnDef =>
        let st1 := consume T .Keyword (withBld (.startNode .FnDef) st)
        (evalP T n .skipTrivia st1).bind fun st2 =>
        (evalP T n .skipTrivia (consume T .Ident st2)).bind fun st4 =>
        (evalP T n .paramList st4).bind fun st5 =>
        (evalP T n .skipTrivia st5).bind fun st6 =>
        (evalP T n .block st6).bind fun st7 =>
        some (withBld .finishNode st7)
    | .paramList =>
        let st1 := consume T .LParen (withBld (.startNode .ParamList) st)
        (evalP T n .skipTrivia st1).bind fun st2 =>
        (if atKind T st2 .RParen then some st2 else evalP T n .paramLoop st2).bind fun st3 =>
        some (withBld .finishNode (consume T .RParen st3))
    | .paramLoop =>
        (evalP T n .skipTrivia (consume T .Ident st)).bind fun st2 =>
        if atKind T st2 .Comma then
          (evalP T n .skipTrivia (consume T .Comma st2)).bind fun st4 =>
          evalP T n .paramLoop st4
        else some st2
    | .block =>
        let st1 := consume T .LBrace (withBld (.startNode .BlockStmt) st)
        (evalP T n .blockLoop st1).bind fun st2 =>
        some (withBld .finishNode (consume T .RBrace st2))
    | .blockLoop =>
        if ¬ atEnd T st ∧ ¬ atKind T st .RBrace then
          ((if atTriv T st then evalP T n .trivia st
            else evalP T n .statement st) : Option PState).bind fun st1 =>
          evalP T n .blockLoop st1
        else some st
    | .statement =>
        match curKind T st with
        | some .Keyword =>
            if curText T st = some "let".data then evalP T n .letStmt st
            else if curText T st = some "if".data then evalP T n .ifStmt st
            else if curText T st = some "while".data then evalP T n .whileStmt st
            else if curText T st = some "return".data then evalP T n .returnStmt st
            else if curText T st = some "fn".data then evalP T n .fnDef st
            else evalP T n .exprStmt st
        | _ => evalP T n .exprStmt st
    | .parseLoop =>
        if ¬ atEnd T st then
          ((if atTriv T st then evalP T n .trivia st
            else evalP T n .statement st) : Option PState).bind fun st1 =>
          evalP T n .parseLoop st1
        else some st

/-- `ParseResult { green_node, errors }`; `green = none` encodes the case
where finishing the builder is a contract violation (a panic in the
implementation), which the spec's error model (§7) treats as a
programmer error, never a recoverable result. -/
structure ParseResult where
  green : Option GreenElement
  errors : List ParseError
  deriving DecidableEq, Repr

/-- Fuel that `evalP_spec` proves sufficient for any parse. -/
def parseFuel (T : List Token) : Nat := 16 * T.length + 16

/-- `Parser::parse`: open the `Root` node, run the main loop, close it and
finish the builder.  `none` = fuel exhausted (ruled out by `evalP_spec`). -/
def parseTokens (T : List Token) : Option ParseResult :=
  (evalP T (parseFuel T) .parseLoop ⟨0, Builder.startNode .Root Builder.empty, []⟩).map
    fun st => ⟨(st.bld.finishNode).finishAll, st.errors⟩

/-- Tokenize then parse, the always-available full pipeline. -/
def parseText (s : String) : Option ParseResult := parseTokens (tokenize s)

/-- `TextEdit { range, new_text }`. -/
structure TextEdit where
  range : TextRange
  newText : List Char
  deriving DecidableEq, Repr

/-- `IncrementalReparser { _old_tree, edits }`.  The old tree is kept (as
the root green node) but, like in the source, never consulted. -/
structure IncrementalReparser where
  oldTree : Option GreenElement
  edits : List TextEdit
  deriving DecidableEq, Repr

/-- `IncrementalReparser::new(tree)`. -/
def IncrementalReparser.ofTree (t : Option GreenElement) : IncrementalReparser :=
  ⟨t, []⟩

/-- `IncrementalReparser::add_edit`. -/
def IncrementalReparser.addEdit (r : IncrementalReparser) (e : TextEdit) :
    IncrementalReparser :=
  { r with edits := r.edits ++ [e] }

/-- `IncrementalReparser::reparse(new_text)`: tokenize and parse the new
text from scratch. -/
def IncrementalReparser.reparse (_r : IncrementalReparser) (newText : String) :
    Option ParseResult :=
  parseTokens (tokenize newText)

/-! ## Derived definitions used by the statements -/

/-- Concatenation of the texts of a token list (the claim-C4 reconstruction). -/
def tokensText (ts : List Token) : List Char :=
  ts.foldr (fun tok acc => tok.text ++ acc) []

/-- Offsets of a token list chain correctly starting from `o`: each token
carries offset `o` plus the UTF-8 lengths of all earlier texts. -/
def offsetsFrom : Nat → List Token → Prop
  | _, [] => True
  | o, tok :: ts => tok.offset = o ∧ offsetsFrom (o + utf8LenL tok.text) ts

/-- A rank per parser routine: along every same-cursor call edge the rank
strictly drops, so `(tokens left) * 16 + rank` is a termination measure. -/
def rank : PCall → Nat
  | .trivia => 0
  | .skipTrivia => 0
  | .wsTrivia => 1
  | .primary => 1
  | .argList => 1
  | .binLoop _ => 1
  | .paramLoop => 1
  | .postLoop => 2
  | .paramList => 2
  | .postfixExpr => 3
  | .unary => 4
  | .binary _ => 5
  | .expression => 6
  | .argLoop => 7
  | .exprStmt => 7
  | .letStmt => 7
  | .ifStmt => 7
  | .whileStmt => 7
  | .returnStmt => 7
  | .fnDef => 7
  | .statement => 8
  | .blockLoop => 9
  | .block => 10
  | .parseLoop => 10

/-- The termination measure for `evalP`. -/
def mu (T : List Token) (c : PCall) (st : PState) : Nat :=
  (T.length - st.cursor) * 16 + rank c

/-- Call-site precondition: the statement routines are only entered on a
`Keyword` token, `argument_list` only on `LParen`. -/
def Pre (T : List Token) (c : PCall) (st : PState) : Prop :=
  match c with
  | .letStmt | .ifStmt | .whileStmt | .returnStmt | .fnDef => atKind T st .Keyword
  | .argList => atKind T st .LParen
  | _ => True

/-- Condition under which a routine is guaranteed to advance the cursor. -/
def Prog (T : List Token) (c : PCall) (st : PState) : Prop :=
  match c with
  | .trivia => atTriv T st
  | .primary | .postfixExpr | .unary | .expression | .exprStmt | .statement =>
      st.cursor < T.length
  | .binary _ => st.cursor < T.length
  | .letStmt | .ifStmt | .whileStmt | .returnStmt | .fnDef | .argList => True
  | _ => False

/-- A well-placed diagnostic: zero-width range, anchored at a token offset
or at 0. -/
def errOk (T : List Token) (e : ParseError) : Prop :=
  e.range.start = e.range.stop ∧
  (e.range.start = 0 ∨ ∃ tok ∈ T, tok.offset = e.range.start)

/-- The error list only ever grows by well-placed diagnostics. -/
def errsLe (T : List Token) (E E2 : List ParseError) : Prop :=
  ∀ e ∈ E2, e ∈ E ∨ errOk T e

/-! # Theorems -/

theorem dropWhile_head_not {p : Char → Bool} :
    ∀ {l l' : List Char} {a : Char}, l.dropWhile p = a :: l' → p a = false := by
  intro l
  induction l with
  | nil => intro l' a h; simp [List.dropWhile] at h
  | cons x xs ih =>
      intro l' a h
      rw [List.dropWhile_cons] at h
      by_cases hx : p x
      · rw [if_pos hx] at h; exact ih h
      · rw [if_neg hx] at h
        cases h
        simpa using hx

theorem scanOne_spec {c : Char} {cs : List Char} {k : SyntaxKind} {t r : List Char}
    (h : scanOne c cs = (k, t, r)) :
    t ++ r = c :: cs ∧ r.length ≤ cs.length ∧ (∃ t2, t = c :: t2) ∧
    (k = .Whitespace ↔ (c = ' ' ∨ c = '\t' ∨ c = '\n' ∨ c = '\r')) ∧
    (k = .Whitespace → r = cs.dropWhile rustIsWhitespace ∧
      ∀ x ∈ t, rustIsWhitespace x = true) := by
  have hdw : ∀ (p : Char → Bool) (l : List Char), (l.dropWhile p).length ≤ l.length :=
    fun p l => (List.dropWhile_sublist p).length_le
  unfold scanOne at h
  by_cases h1 : (c = ' ' ∨ c = '\t' ∨ c = '\n' ∨ c = '\r')
  · rw [if_pos h1] at h
    injection h with hk h2
    injection h2 with ht hr
    subst hk
    subst ht
    subst hr
    refine ⟨by simp [List.takeWhile_append_dropWhile], hdw _ _, ⟨_, rfl⟩,
      ⟨fun _ => h1, fun _ => rfl⟩, fun _ => ⟨rfl, ?_⟩⟩
    intro x hx
    rcases List.mem_cons.mp hx with rfl | hx2
    · rcases h1 with rfl | rfl | rfl | rfl <;> decide
    · exact List.mem_takeWhile_imp hx2
  rw [if_neg h1] at h
  by_cases h2 : c = '/'
  · rw [if_pos h2] at h
    split at h
    · rename_i rest
      injection h with hk h3
      injection h3 with ht hr
      subst hk
      subst ht
      subst hr
      subst h2
      refine ⟨by simp [List.takeWhile_append_dropWhile], ?_, ⟨_, rfl⟩,
        ⟨fun hx => SyntaxKind.noConfusion hx, fun hc => absurd hc h1⟩,
        fun hx => SyntaxKind.noConfusion hx⟩
      calc (rest.dropWhile notNewline).length ≤ rest.length := hdw _ _
        _ ≤ ('/' :: rest).length := by simp
    · injection h with hk h3
      injection h3 with ht hr
      subst hk
      subst ht
      subst hr
      subst h2
      exact ⟨rfl, Nat.le_refl _, ⟨_, rfl⟩,
        ⟨fun hx => SyntaxKind.noConfusion hx, fun hc => absurd hc h1⟩,
        fun hx => SyntaxKind.noConfusion hx⟩
  rw [if_neg h2] at h
  by_cases h3 : c = '+'
  · rw [if_pos h3] at h
    injection h with hk hh
    injection hh with ht hr
    subst hk
    subst ht
    subst hr
    subst h3
    exact ⟨rfl, Nat.le_refl _, ⟨_, rfl⟩,
      ⟨fun hx => SyntaxKind.noConfusion hx, fun hc => absurd hc h1⟩,
      fun hx => SyntaxKind.noConfusion hx⟩
  rw [if_neg h3] at h
  by_cases h4 : c = '-'
  · rw [if_pos h4] at h
    injection h with hk hh
    injection hh with ht hr
    subst hk
    subst ht
    subst hr
    subst h4
    exact ⟨rfl, Nat.le_refl _, ⟨_, rfl⟩,
      ⟨fun hx => SyntaxKind.noConfusion hx, fun hc => absurd hc h1⟩,
      fun hx => SyntaxKind.noConfusion hx⟩
  rw [if_neg h4] at h
  by_cases h5 : c = '*'
  · rw [if_pos h5] at h
    injection h with hk hh
    injection hh with ht hr
    subst hk
    subst ht
    subst hr
    subst h5
    exact ⟨rfl, Nat.le_refl _, ⟨_, rfl⟩,
      ⟨fun hx => SyntaxKind.noConfusion hx, fun hc => absurd hc h1⟩,
      fun hx => SyntaxKind.noConfusion hx⟩
  rw [if_neg h5] at h
  by_cases h6 : c = '='
  · rw [if_pos h6] at h
    split at h
    · rename_i rest
      injection h with hk hh
      injection hh with ht hr
      subst hk
      subst ht
      subst hr
      subst h6
      exact ⟨rfl, by simp, ⟨_, rfl⟩,
        ⟨fun hx => SyntaxKind.noConfusion hx, fun hc => absurd hc h1⟩,
        fun hx => SyntaxKind.noConfusion hx⟩
    · injection h with hk hh
      injection hh with ht hr
      subst hk
      subst ht
      subst hr
      subst h6
      exact ⟨rfl, Nat.le_refl _, ⟨_, rfl⟩,
        ⟨fun hx => SyntaxKind.noConfusion hx, fun hc => absurd hc h1⟩,
        fun hx => SyntaxKind.noConfusion hx⟩
  rw [if_neg h6] at h
  by_cases h7 : c = '!'
  · rw [if_pos h7] at h
    split at h
    · rename_i rest
      injection h with hk hh
      injection hh with ht hr
      subst hk
      subst ht
      subst hr
      subst h7
      exact ⟨rfl, by simp, ⟨_, rfl⟩,
        ⟨fun hx => SyntaxKind.noConfusion hx, fun hc => absurd hc h1⟩,
        fun hx => SyntaxKind.noConfusion hx⟩
    · injection h with hk hh
      injection hh with ht hr
      subst hk
      subst ht
      subst hr
      subst h7
      exact ⟨rfl, Nat.le_refl _, ⟨_, rfl⟩,
        ⟨fun hx => SyntaxKind.noConfusion hx, fun hc => absurd hc h1⟩,
        fun hx => SyntaxKind.noConfusion hx⟩
  rw [if_neg h7] at h
  by_cases h8 : c = '<'
  · rw [if_pos h8] at h
    injection h with hk hh
    injection hh with ht hr
    subst hk
    subst ht
    subst hr
    subst h8
    exact ⟨rfl, Nat.le_refl _, ⟨_, rfl⟩,
      ⟨fun hx => SyntaxKind.noConfusion hx, fun hc => absurd hc h1⟩,
      fun hx => SyntaxKind.noConfusion hx⟩
  rw [if_neg h8] at h
  by_cases h9 : c = '>'
  · rw [if_pos h9] at h
    injection h with hk hh
    injection hh with ht hr
    subst hk
    subst ht
    subst hr
    subst h9
    exact ⟨rfl, Nat.le_refl _, ⟨_, rfl⟩,
      ⟨fun hx => SyntaxKind.noConfusion hx, fun hc => absurd hc h1⟩,
      fun hx => SyntaxKind.noConfusion hx⟩
  rw [if_neg h9] at h
  by_cases h10 : c = '('
  · rw [if_pos h10] at h
    injection h with hk hh
    injection hh with ht hr
    subst hk
    subst ht
    subst hr
    subst h10
    exact ⟨rfl, Nat.le_refl _, ⟨_, rfl⟩,
      ⟨fun hx => SyntaxKind.noConfusion hx, fun hc => absurd hc h1⟩,
      fun hx => SyntaxKind.noConfusion hx⟩
  rw [if_neg h10] at h
  by_cases h11 : c = ')'
  · rw [if_pos h11] at h
    injection h with hk hh
    injection hh with ht hr
    subst hk
    subst ht
    subst hr
    subst h11
    exact ⟨rfl, Nat.le_refl _, ⟨_, rfl⟩,
      ⟨fun hx => SyntaxKind.noConfusion hx, fun hc => absurd hc h1⟩,
      fun hx => SyntaxKind.noConfusion hx⟩
  rw [if_neg h11] at h
  by_cases h12 : c = '\x7b'
  · rw [if_pos h12] at h
    injection h with hk hh
    injection hh with ht hr
    subst hk
    subst ht
    subst hr
    subst h12
    exact ⟨rfl, Nat.le_refl _, ⟨_, rfl⟩,
      ⟨fun hx => SyntaxKind.noConfusion hx, fun hc => absurd hc h1⟩,
      fun hx => SyntaxKind.noConfusion hx⟩
  rw [if_neg h12] at h
  by_cases h13 : c = '\x7d'
  · rw [if_pos h13] at h
    injection h with hk hh
    injection hh with ht hr
    subst hk
    subst ht
    subst hr
    subst h13
    exact ⟨rfl, Nat.le_refl _, ⟨_, rfl⟩,
      ⟨fun hx => SyntaxKind.noConfusion hx, fun hc => absurd hc h1⟩,
      fun hx => SyntaxKind.noConfusion hx⟩
  rw [if_neg h13] at h
  by_cases h14 : c = ';'
  · rw [if_pos h14] at h
    injection h with hk hh
    injection hh with ht hr
    subst hk
    subst ht
    subst hr
    subst h14
    exact ⟨rfl, Nat.le_refl _, ⟨_, rfl⟩,
      ⟨fun hx => SyntaxKind.noConfusion hx, fun hc => absurd hc h1⟩,
      fun hx => SyntaxKind.noConfusion hx⟩
  rw [if_neg h14] at h
  by_cases h15 : c = ','
  · rw [if_pos h15] at h
    injection h with hk hh
    injection hh with ht hr
    subst hk
    subst ht
    subst hr
    subst h15
    exact ⟨rfl, Nat.le_refl _, ⟨_, rfl⟩,
      ⟨fun hx => SyntaxKind.noConfusion hx, fun hc => absurd hc h1⟩,
      fun hx => SyntaxKind.noConfusion hx⟩
  rw [if_neg h15] at h
  by_cases h16 : c = '"'
  · rw [if_pos h16] at h
    split at h
    · rename_i q rest heq
      injection h with hk hh
      injection hh with ht hr
      subst hk
      subst ht
      subst hr
      subst h16
      have hcs : cs.takeWhile notQuote ++ (q :: rest) = cs := by
        rw [← heq, List.takeWhile_append_dropWhile]
      refine ⟨?_, ?_, ⟨_, rfl⟩,
        ⟨fun hx => SyntaxKind.noConfusion hx, fun hc => absurd hc h1⟩,
        fun hx => SyntaxKind.noConfusion hx⟩
      · rw [List.cons_append, List.append_assoc, List.singleton_append, hcs]
      · have := hdw notQuote cs
        rw [heq] at this
        simp at this
        omega
    · rename_i heq
      injection h with hk hh
      injection hh with ht hr
      subst hk
      subst ht
      subst hr
      subst h16
      have hcs : cs.takeWhile notQuote = cs := by
        conv_rhs => rw [← List.takeWhile_append_dropWhile (p := notQuote) (l := cs)]
        rw [heq, List.append_nil]
      refine ⟨by rw [List.append_nil, hcs], by simp, ⟨_, rfl⟩,
        ⟨fun hx => SyntaxKind.noConfusion hx, fun hc => absurd hc h1⟩,
        fun hx => SyntaxKind.noConfusion hx⟩
  rw [if_neg h16] at h
  by_cases h17 : isAsciiDigit c = true
  · rw [if_pos h17] at h
    injection h with hk hh
    injection hh with ht hr
    subst hk
    subst ht
    subst hr
    exact ⟨by simp [List.takeWhile_append_dropWhile], hdw _ _, ⟨_, rfl⟩,
      ⟨fun hx => SyntaxKind.noConfusion hx, fun hc => absurd hc h1⟩,
      fun hx => SyntaxKind.noConfusion hx⟩
  rw [if_neg h17] at h
  by_cases h18 : (isAsciiAlpha c || decide (c = '_')) = true
  · rw [if_pos h18] at h
    injection h with hk hh
    injection hh with ht hr
    subst hk
    subst ht
    subst hr
    refine ⟨by simp [List.takeWhile_append_dropWhile], hdw _ _, ⟨_, rfl⟩,
      ⟨fun hx => ?_, fun hc => absurd hc h1⟩, fun hx => ?_⟩
    · split at hx <;> exact SyntaxKind.noConfusion hx
    · split at hx <;> exact SyntaxKind.noConfusion hx
  rw [if_neg h18] at h
  injection h with hk hh
  injection hh with ht hr
  subst hk
  subst ht
  subst hr
  exact ⟨rfl, Nat.le_refl _, ⟨_, rfl⟩,
    ⟨fun hx => SyntaxKind.noConfusion hx, fun hc => absurd hc h1⟩,
    fun hx => SyntaxKind.noConfusion hx⟩

theorem tokensText_cons (tok : Token) (ts : List Token) :
    tokensText (tok :: ts) = tok.text ++ tokensText ts := rfl

theorem tokenizeF_text : ∀ (fuel off : Nat) (cs : List Char), cs.length < fuel →
    tokensText (tokenizeF fuel off cs) = cs := by
  intro fuel
  induction fuel with
  | zero => intro off cs h; omega
  | succ n ih =>
      intro off cs h
      cases cs with
      | nil => rfl
      | cons c cs2 =>
          rcases hscan : scanOne c cs2 with ⟨k, t, r⟩
          obtain ⟨hA, hB, hC, _, _⟩ := scanOne_spec hscan
          simp only [tokenizeF, hscan, tokensText_cons]
          rw [ih _ r (by simp at h; omega)]
          exact hA

theorem tokenize_text (s : String) : tokensText (tokenize s) = s.data :=
  tokenizeF_text _ _ _ (Nat.lt_succ_self _)

theorem tokenizeF_tokens_ok : ∀ (fuel off : Nat) (cs : List Char) (tok : Token),
    tok ∈ tokenizeF fuel off cs →
    tok.text ≠ [] ∧
    (tok.kind = .Whitespace →
      (∃ c2 t2, tok.text = c2 :: t2 ∧ (c2 = ' ' ∨ c2 = '\t' ∨ c2 = '\n' ∨ c2 = '\r')) ∧
      ∀ x ∈ tok.text, rustIsWhitespace x = true) := by
  intro fuel
  induction fuel with
  | zero => intro off cs tok h; simp [tokenizeF] at h
  | succ n ih =>
      intro off cs tok h
      cases cs with
      | nil => simp [tokenizeF] at h
      | cons c cs2 =>
          rcases hscan : scanOne c cs2 with ⟨k, t, r⟩
          simp only [tokenizeF, hscan] at h
          obtain ⟨_, _, hC, hD, hE⟩ := scanOne_spec hscan
          rcases List.mem_cons.mp h with rfl | h2
          · refine ⟨by obtain ⟨t2, rfl⟩ := hC; simp, fun hw => ⟨?_, (hE hw).2⟩⟩
            obtain ⟨t2, rfl⟩ := hC
            exact ⟨c, t2, rfl, hD.mp hw⟩
          · exact ih _ _ _ h2

theorem wsStart_rustIsWhitespace {c : Char}
    (h : c = ' ' ∨ c = '\t' ∨ c = '\n' ∨ c = '\r') : rustIsWhitespace c = true := by
  rcases h with rfl | rfl | rfl | rfl <;> decide

theorem tokenizeF_head_ws : ∀ (fuel off : Nat) (cs : List Char) (b : Token),
    (tokenizeF fuel off cs).head? = some b → b.kind = .Whitespace →
    ∃ c2 cs2, cs = c2 :: cs2 ∧ (c2 = ' ' ∨ c2 = '\t' ∨ c2 = '\n' ∨ c2 = '\r') := by
  intro fuel off cs b hh hw
  cases fuel with
  | zero => simp [tokenizeF] at hh
  | succ n =>
      cases cs with
      | nil => simp [tokenizeF] at hh
      | cons c cs2 =>
          rcases hscan : scanOne c cs2 with ⟨k, t, r⟩
          simp only [tokenizeF, hscan, List.head?_cons, Option.some.injEq] at hh
          obtain ⟨_, _, _, hD, _⟩ := scanOne_spec hscan
          subst hh
          exact ⟨c, cs2, rfl, hD.mp hw⟩

/-- No two adjacent `Whitespace` tokens ever appear in the token stream. -/
theorem tokenizeF_chain : ∀ (fuel off : Nat) (cs : List Char),
    List.Chain' (fun a b => ¬(a.kind = .Whitespace ∧ b.kind = .Whitespace))
      (tokenizeF fuel off cs) := by
  intro fuel
  induction fuel with
  | zero => intro off cs; simp [tokenizeF]
  | succ n ih =>
      intro off cs
      cases cs with
      | nil => simp [tokenizeF]
      | cons c cs2 =>
          rcases hscan : scanOne c cs2 with ⟨k, t, r⟩
          simp only [tokenizeF, hscan]
          rw [List.chain'_cons']
          refine ⟨?_, ih _ _⟩
          intro b hb hcon
          obtain ⟨hka, hkb⟩ := hcon
          obtain ⟨_, _, _, _, hE⟩ := scanOne_spec hscan
          obtain ⟨hr, _⟩ := hE hka
          obtain ⟨c2, cs3, hcs2, hws⟩ := tokenizeF_head_ws _ _ _ _ hb hkb
          subst hr
          have hfalse := dropWhile_head_not hcs2
          rw [wsStart_rustIsWhitespace hws] at hfalse
          cases hfalse

theorem tokenizeF_offsets : ∀ (fuel off : Nat) (cs : List Char),
    offsetsFrom off (tokenizeF fuel off cs) := by
  intro fuel
  induction fuel with
  | zero => intro off cs; simp [tokenizeF, offsetsFrom]
  | succ n ih =>
      intro off cs
      cases cs with
      | nil => simp [tokenizeF, offsetsFrom]
      | cons c cs2 =>
          rcases hscan : scanOne c cs2 with ⟨k, t, r⟩
          simp only [tokenizeF, hscan]
          exact ⟨rfl, ih _ _⟩

theorem offsetsFrom_get : ∀ (ts : List Token) (o : Nat), offsetsFrom o ts →
    ∀ i (h : i + 1 < ts.length),
      (ts.get ⟨i + 1, h⟩).offset =
        (ts.get ⟨i, by omega⟩).offset + utf8LenL (ts.get ⟨i, by omega⟩).text := by
  intro ts
  induction ts with
  | nil => intro o _ i h; simp at h
  | cons tok ts2 ih =>
      intro o ho i h
      obtain ⟨h1, h2⟩ := ho
      cases i with
      | zero =>
          cases ts2 with
          | nil => simp at h
          | cons tok2 ts3 =>
              obtain ⟨h3, _⟩ := h2
              simp [List.get, h1, h3]
      | succ j =>
          have := ih _ h2 j (by simp at h; omega)
          simpa [List.get] using this

theorem offsetsFrom_head : ∀ (ts : List Token) (o : Nat), offsetsFrom o ts →
    ∀ (h : 0 < ts.length), (ts.get ⟨0, h⟩).offset = o := by
  intro ts o ho h
  cases ts with
  | nil => simp at h
  | cons tok ts2 => exact ho.1

theorem utf8LenL_pos {t : List Char} (h : t ≠ []) : 0 < utf8LenL t := by
  cases t with
  | nil => exact absurd rfl h
  | cons c t2 =>
      have : 0 < utf8Len c := by
        unfold utf8Len
        repeat' split
        all_goals omega
      simp only [utf8LenL, List.foldr_cons]
      have h2 : 0 ≤ (t2.foldr (fun c acc => utf8Len c + acc) 0) := Nat.zero_le _
      omega


/-! ## Tokenizer claims -/

/-- C4: tokenizer round-trip / total coverage — for every input string,
concatenating the texts of `tokenize s` in order reconstructs `s` exactly,
and no token is empty, so every char belongs to exactly one token. -/
theorem tokenize_roundtrip (s : String) :
    tokensText (tokenize s) = s.data ∧ ∀ tok ∈ tokenize s, tok.text ≠ [] :=
  ⟨tokenize_text s, fun tok h => (tokenizeF_tokens_ok _ _ _ tok h).1⟩

/-- Witness for C4 at a concrete input. -/
theorem tokenize_roundtrip_witness :
    tokensText (tokenize "let x = 1 + 2 * 3;") = "let x = 1 + 2 * 3;".data ∧
    ∀ tok ∈ tokenize "let x = 1 + 2 * 3;", tok.text ≠ [] :=
  tokenize_roundtrip "let x = 1 + 2 * 3;"

/-- C8 counterexample: a maximal whitespace run that starts with a
non-ASCII whitespace char (here U+00A0, for which Rust's
`char::is_whitespace` is true) is emitted as an `Error` token, not as one
`Whitespace` token. -/
theorem nbsp_run_not_whitespace_token :
    rustIsWhitespace (Char.ofNat 0xA0) = true ∧
    tokenize " " = [⟨SyntaxKind.Error, [Char.ofNat 0xA0], 0⟩] := by
  exact ⟨by decide, by decide⟩

/-- C8 (amended): every `Whitespace` token starts with one of the four
ASCII whitespace chars, consists only of whitespace, and absorbs all
immediately following whitespace — consequently the token stream never
contains two adjacent `Whitespace` tokens. -/
theorem whitespace_tokens_never_adjacent (s : String) :
    List.Chain' (fun a b => ¬(a.kind = SyntaxKind.Whitespace ∧ b.kind = SyntaxKind.Whitespace))
      (tokenize s) ∧
    ∀ tok ∈ tokenize s, tok.kind = SyntaxKind.Whitespace →
      (∃ c2 t2, tok.text = c2 :: t2 ∧ (c2 = ' ' ∨ c2 = '\t' ∨ c2 = '\n' ∨ c2 = '\r')) ∧
      ∀ x ∈ tok.text, rustIsWhitespace x = true :=
  ⟨tokenizeF_chain _ _ _, fun tok h hw => (tokenizeF_tokens_ok _ _ _ tok h).2 hw⟩

/-- Witness for C8 (amended) at a concrete input. -/
theorem whitespace_tokens_never_adjacent_witness :
    List.Chain' (fun a b => ¬(a.kind = SyntaxKind.Whitespace ∧ b.kind = SyntaxKind.Whitespace))
      (tokenize "a \t b") ∧
    ∀ tok ∈ tokenize "a \t b", tok.kind = SyntaxKind.Whitespace →
      (∃ c2 t2, tok.text = c2 :: t2 ∧ (c2 = ' ' ∨ c2 = '\t' ∨ c2 = '\n' ∨ c2 = '\r')) ∧
      ∀ x ∈ tok.text, rustIsWhitespace x = true :=
  whitespace_tokens_never_adjacent "a \t b"

/-- C9: the tokens of `tokenize s` have strictly increasing offsets, the
first token sits at offset 0, and each later token's offset is the previous
offset plus the UTF-8 byte length of the previous text. -/
theorem token_offsets_chain (s : String) :
    (∀ h0 : 0 < (tokenize s).length, ((tokenize s).get ⟨0, h0⟩).offset = 0) ∧
    ∀ i (h : i + 1 < (tokenize s).length),
      ((tokenize s).get ⟨i + 1, h⟩).offset =
        ((tokenize s).get ⟨i, by omega⟩).offset +
          utf8LenL ((tokenize s).get ⟨i, by omega⟩).text ∧
      ((tokenize s).get ⟨i, by omega⟩).offset < ((tokenize s).get ⟨i + 1, h⟩).offset := by
  have hoffs : offsetsFrom 0 (tokenize s) := tokenizeF_offsets (s.data.length + 1) 0 s.data
  refine ⟨fun h0 => offsetsFrom_head _ _ hoffs h0, fun i h => ?_⟩
  have heq := offsetsFrom_get _ _ hoffs i h
  refine ⟨heq, ?_⟩
  have hne : ((tokenize s).get ⟨i, by omega⟩).text ≠ [] :=
    (tokenizeF_tokens_ok _ _ _ _ (List.get_mem _ _ _)).1
  have := utf8LenL_pos hne
  omega

/-- Witness for C9 at a concrete input and index. -/
theorem token_offsets_chain_witness :
    ((tokenize "ab c").get ⟨1, by decide⟩).offset =
      ((tokenize "ab c").get ⟨0, by decide⟩).offset +
        utf8LenL ((tokenize "ab c").get ⟨0, by decide⟩).text ∧
    ((tokenize "ab c").get ⟨0, by decide⟩).offset <
      ((tokenize "ab c").get ⟨1, by decide⟩).offset :=
  (token_offsets_chain "ab c").2 0 (by decide)

/-! ## Parser claims refutable by direct evaluation -/

/-- C1: losslessness fails on the code — `skip_trivia` advances past
whitespace/comment tokens without emitting them into the builder, so
parsing `"let x;"` yields a tree whose text is `"letx;"`, not the input. -/
theorem parse_drops_skipped_trivia :
    (parseText "let x;").map (fun r => r.green.map (·.textOf)) =
      some (some "letx;".data) ∧
    "letx;".data ≠ "let x;".data := by
  exact ⟨by decide, by decide⟩

set_option maxHeartbeats 2000000 in
/-- C2: checkpoint placement bug — `binary_expression` takes its checkpoint
after the left operand has already been emitted, so each `BinaryExpr` node
contains only the operator, trivia and right operand; the left operand
stays behind as a preceding sibling.  `"1 + 2 * 3"` and `"1 * 2 + 3"`
evaluate to exactly these trees (not the claimed `Add(Number 1, Mul ..)` /
`Add(Mul .., Number 3)` shapes). -/
theorem binary_expr_missing_left_operand :
    parseText "1 + 2 * 3" =
      some ⟨some (GreenElement.nd .Root (gl
        [GreenElement.nd .ExprStmt (gl
          [GreenElement.nd .Literal (gl [GreenElement.tk .Number ['1']]),
           GreenElement.tk .Whitespace [' '],
           GreenElement.nd .BinaryExpr (gl
             [GreenElement.tk .Plus ['+'],
              GreenElement.tk .Whitespace [' '],
              GreenElement.nd .Literal (gl [GreenElement.tk .Number ['2']]),
              GreenElement.tk .Whitespace [' '],
              GreenElement.nd .BinaryExpr (gl
                [GreenElement.tk .Star ['*'],
                 GreenElement.tk .Whitespace [' '],
                 GreenElement.nd .Literal (gl [GreenElement.tk .Number ['3']])])])])])),
        [⟨"Expected Semicolon", ⟨0, 0⟩⟩]⟩ ∧
    parseText "1 * 2 + 3" =
      some ⟨some (GreenElement.nd .Root (gl
        [GreenElement.nd .ExprStmt (gl
          [GreenElement.nd .Literal (gl [GreenElement.tk .Number ['1']]),
           GreenElement.tk .Whitespace [' '],
           GreenElement.nd .BinaryExpr (gl
             [GreenElement.tk .Star ['*'],
              GreenElement.tk .Whitespace [' '],
              GreenElement.nd .Literal (gl [GreenElement.tk .Number ['2']]),
              GreenElement.tk .Whitespace [' ']]),
           GreenElement.nd .BinaryExpr (gl
             [GreenElement.tk .Plus ['+'],
              GreenElement.tk .Whitespace [' '],
              GreenElement.nd .Literal (gl [GreenElement.tk .Number ['3']])])])])),
        [⟨"Expected Semicolon", ⟨0, 0⟩⟩]⟩ := by
  exact ⟨by decide, by decide⟩

/-- C3: call syntax breaks the builder protocol — `postfix_expression`
opens a `CallExpr` node it never finishes, so for `"f();"` (and e.g.
`" f();"`) the parse ends with an unclosed frame: finishing the builder is
a structural/programmer error (a panic in the implementation), modelled as
`green = none`, not a complete tree. -/
theorem parse_call_syntax_builder_violation :
    parseText "f();" = some ⟨none, []⟩ ∧ parseText " f();" = some ⟨none, []⟩ := by
  exact ⟨by decide, by decide⟩

/-- C5: incremental reparse is exactly a full reparse — `reparse` tokenizes
and parses the new text from scratch, ignoring the stored tree and edits,
so its result is identical to `parseText` for every receiver. -/
theorem reparse_equals_full_parse (r r2 : IncrementalReparser) (t : String) :
    r.reparse t = parseText t ∧ r.reparse t = r2.reparse t :=
  ⟨rfl, rfl⟩

/-- C7 counterexample: the input `"(1 + 2"` has 6 bytes (not 7) and
produces two diagnostics (not exactly one). -/
theorem unterminated_paren_not_one_error :
    "(1 + 2".length = 6 ∧
    ((parseText "(1 + 2").map fun r => r.errors.length) = some 2 := by
  exact ⟨by decide, by decide⟩

/-- C7 (amended): parsing the 6-byte input `"(1 + 2"` yields a tree whose
text covers all 6 bytes, and exactly two diagnostics: first the missing
closing parenthesis (`Expected RParen`), then the missing statement
terminator (`Expected Semicolon`). -/
theorem unterminated_paren_two_errors :
    (parseText "(1 + 2").map (fun r => (r.green.map (·.textOf), r.errors)) =
      some (some "(1 + 2".data,
        [⟨"Expected RParen", ⟨0, 0⟩⟩, ⟨"Expected Semicolon", ⟨0, 0⟩⟩]) := by
  decide

/-! ## Primitive-operation lemmas for the parser -/

theorem atKind_lt {T : List Token} {st : PState} {k : SyntaxKind}
    (h : atKind T st k) : st.cursor < T.length := by
  unfold atKind curKind curTok at h
  cases htok : T.get? st.cursor with
  | none => rw [htok] at h; simp at h
  | some tok => exact (List.get?_eq_some.mp htok).1

theorem advance_mono (T : List Token) (st : PState) :
    st.cursor ≤ (advance T st).cursor := by
  unfold advance; split <;> simp

theorem advance_le (T : List Token) (st : PState) (h : st.cursor ≤ T.length) :
    (advance T st).cursor ≤ T.length := by
  unfold advance
  split
  · rename_i h2
    show st.cursor + 1 ≤ T.length
    omega
  · exact h

theorem advance_lt (T : List Token) (st : PState) (h : st.cursor < T.length) :
    (advance T st).cursor = st.cursor + 1 := by
  unfold advance; rw [if_pos h]

theorem advance_errors (T : List Token) (st : PState) :
    (advance T st).errors = st.errors := by
  unfold advance; split <;> rfl

theorem errsLe_refl (T : List Token) (E : List ParseError) : errsLe T E E :=
  fun _ he => .inl he

theorem errsLe_trans {T : List Token} {E1 E2 E3 : List ParseError}
    (h1 : errsLe T E1 E2) (h2 : errsLe T E2 E3) : errsLe T E1 E3 := by
  intro e he
  rcases h2 e he with h | h
  · exact h1 e h
  · exact .inr h

theorem errsLe_of_eq {T : List Token} {E1 E2 : List ParseError} (h : E2 = E1) :
    errsLe T E1 E2 := fun e he => .inl (h ▸ he)

theorem pushError_cursor (T : List Token) (st : PState) (m : String) :
    (pushError T st m).cursor = st.cursor := rfl

theorem pushError_errs (T : List Token) (st : PState) (m : String) :
    errsLe T st.errors (pushError T st m).errors := by
  intro e he
  unfold pushError at he
  rcases List.mem_append.mp he with h | h
  · exact .inl h
  · right
    rcases List.mem_singleton.mp h with rfl
    refine ⟨rfl, ?_⟩
    cases htok : curTok T st with
    | none => left; simp [htok, TextRange.emptyAt]
    | some tok =>
        right
        refine ⟨tok, ?_, by simp [htok, TextRange.emptyAt]⟩
        exact List.get?_mem htok

theorem withBld_cursor (f : Builder → Builder) (st : PState) :
    (withBld f st).cursor = st.cursor := rfl

theorem withBld_errors (f : Builder → Builder) (st : PState) :
    (withBld f st).errors = st.errors := rfl

theorem consume_mono (T : List Token) (k : SyntaxKind) (st : PState) :
    st.cursor ≤ (consume T k st).cursor := by
  unfold consume
  cases htok : curTok T st with
  | none => simp [pushError_cursor]
  | some tok =>
      dsimp only
      by_cases hk : tok.kind = k
      · rw [if_pos hk]
        exact le_trans (le_of_eq (withBld_cursor _ _).symm) (advance_mono _ _)
      · rw [if_neg hk]
        simp [pushError_cursor]

theorem consume_le (T : List Token) (k : SyntaxKind) (st : PState)
    (h : st.cursor ≤ T.length) : (consume T k st).cursor ≤ T.length := by
  unfold consume
  cases htok : curTok T st with
  | none => simpa [pushError_cursor]
  | some tok =>
      dsimp only
      by_cases hk : tok.kind = k
      · rw [if_pos hk]
        exact advance_le _ _ h
      · rw [if_neg hk]
        simpa [pushError_cursor]

theorem consume_at {T : List Token} {k : SyntaxKind} {st : PState}
    (h : atKind T st k) : (consume T k st).cursor = st.cursor + 1 := by
  have hlt := atKind_lt h
  unfold atKind curKind at h
  unfold consume
  cases htok : curTok T st with
  | none => rw [htok] at h; simp at h
  | some tok =>
      rw [htok] at h
      simp only [Option.map_some', Option.some.injEq] at h
      dsimp only
      rw [if_pos h]
      have h2 : (withBld (Builder.addToken k tok.text) st).cursor < T.length := hlt
      rw [advance_lt _ _ h2, withBld_cursor]

theorem consume_errs (T : List Token) (k : SyntaxKind) (st : PState) :
    errsLe T st.errors (consume T k st).errors := by
  unfold consume
  cases htok : curTok T st with
  | none => exact pushError_errs _ _ _
  | some tok =>
      dsimp only
      by_cases hk : tok.kind = k
      · rw [if_pos hk]
        rw [advance_errors, withBld_errors]
        exact errsLe_refl _ _
      · rw [if_neg hk]
        exact pushError_errs _ _ _

theorem rank_le15 (c : PCall) : rank c ≤ 15 := by
  cases c <;> simp [rank]

theorem mu_rank {T : List Token} {c c2 : PCall} {st st2 : PState}
    (hrank : rank c2 < rank c) (hcur : st.cursor ≤ st2.cursor) :
    mu T c2 st2 < mu T c st := by
  unfold mu
  have : T.length - st2.cursor ≤ T.length - st.cursor := by omega
  omega

theorem mu_cursor {T : List Token} {c c2 : PCall} {st st2 : PState}
    (hcur : st.cursor < st2.cursor) (hle : st2.cursor ≤ T.length) :
    mu T c2 st2 < mu T c st := by
  unfold mu
  have h15 := rank_le15 c2
  have h1 : T.length - st2.cursor + 1 ≤ T.length - st.cursor := by omega
  omega

theorem opPrec_binop {ck : Option SyntaxKind} {p : Nat} (h : opPrec ck = some p) :
    ∃ k, ck = some k ∧ isBinOpKind k = true := by
  cases ck with
  | none => simp [opPrec] at h
  | some k =>
      cases k <;> first
        | exact ⟨_, rfl, rfl⟩
        | simp [opPrec] at h

theorem consume_withBld_errs (T : List Token) (k : SyntaxKind) (g : Builder → Builder)
    (st : PState) : errsLe T st.errors (consume T k (withBld g st)).errors :=
  consume_errs T k (withBld g st)

/-- Joint adequacy / monotonicity / progress / error-placement theorem for
the parser interpreter: with fuel exceeding the measure `mu`, `evalP` never
exhausts its fuel, the cursor only moves forward and stays in bounds, the
routines advance under their progress conditions, and errors only accrue
as zero-width, token-anchored diagnostics. -/
theorem evalP_spec (T : List Token) :
    ∀ (n : Nat) (c : PCall) (st : PState), Pre T c st → st.cursor ≤ T.length →
      mu T c st < n →
      ∃ st', evalP T n c st = some st' ∧
        st.cursor ≤ st'.cursor ∧ st'.cursor ≤ T.length ∧
        (Prog T c st → st.cursor < st'.cursor) ∧
        errsLe T st.errors st'.errors := by
  intro n
  induction n with
  | zero =>
      intro c st _ _ hmu
      omega
  | succ n ih =>
    intro c st hpre hle hmu
    have hmun : mu T c st ≤ n := Nat.lt_succ_iff.mp hmu
    cases c with
    | trivia =>
        simp only [evalP]
        by_cases hW : atKind T st .Whitespace
        · rw [if_pos hW]
          have hlt := atKind_lt hW
          have hc1 : (consume T .Whitespace st).cursor = st.cursor + 1 := consume_at hW
          have hle1 : (consume T .Whitespace st).cursor ≤ T.length := consume_le _ _ _ hle
          have hmu1 : mu T .trivia (consume T .Whitespace st) < mu T .trivia st :=
            mu_cursor (by omega) hle1
          obtain ⟨st', he, hm1, hm2, _, herr⟩ :=
            ih .trivia _ trivial hle1 (by omega)
          exact ⟨st', he, by omega, hm2, fun _ => by omega,
            errsLe_trans (consume_errs _ _ _) herr⟩
        · rw [if_neg hW]
          by_cases hC : atKind T st .Comment
          · rw [if_pos hC]
            have hlt := atKind_lt hC
            have hc1 : (consume T .Comment st).cursor = st.cursor + 1 := consume_at hC
            have hle1 : (consume T .Comment st).cursor ≤ T.length := consume_le _ _ _ hle
            have hmu1 : mu T .trivia (consume T .Comment st) < mu T .trivia st :=
              mu_cursor (by omega) hle1
            obtain ⟨st', he, hm1, hm2, _, herr⟩ :=
              ih .trivia _ trivial hle1 (by omega)
            exact ⟨st', he, by omega, hm2, fun _ => by omega,
              errsLe_trans (consume_errs _ _ _) herr⟩
          · rw [if_neg hC]
            refine ⟨st, rfl, Nat.le_refl _, hle, fun hp => ?_, errsLe_refl _ _⟩
            simp only [Prog] at hp
            rcases hp with h | h
            · exact absurd h hW
            · exact absurd h hC
    | skipTrivia =>
        simp only [evalP]
        by_cases hT : atTriv T st
        · rw [if_pos hT]
          have hlt : st.cursor < T.length := by
            rcases hT with h | h
            · exact atKind_lt h
            · exact atKind_lt h
          have hc1 : (advance T st).cursor = st.cursor + 1 := advance_lt _ _ hlt
          have hle1 : (advance T st).cursor ≤ T.length := advance_le _ _ hle
          have hmu1 : mu T .skipTrivia (advance T st) < mu T .skipTrivia st :=
            mu_cursor (by omega) hle1
          obtain ⟨st', he, hm1, hm2, _, herr⟩ :=
            ih .skipTrivia _ trivial hle1 (by omega)
          exact ⟨st', he, by omega, hm2, fun hp => by simp only [Prog] at hp,
            errsLe_trans (errsLe_of_eq (advance_errors _ _)) herr⟩
        · rw [if_neg hT]
          exact ⟨st, rfl, Nat.le_refl _, hle, fun hp => by simp only [Prog] at hp,
            errsLe_refl _ _⟩
    | wsTrivia =>
        simp only [evalP]
        by_cases hW : atKind T st .Whitespace
        · rw [if_pos hW]
          have hmu1 : mu T .trivia st < mu T .wsTrivia st :=
            mu_rank (by simp [rank]) (Nat.le_refl _)
          obtain ⟨st1, he1, hm1, hm2, hP1, herr1⟩ := ih .trivia st trivial hle (by omega)
          rw [he1, Option.some_bind]
          have hstrict : st.cursor < st1.cursor := hP1 (by simp only [Prog]; exact .inl hW)
          have hmu2 : mu T .wsTrivia st1 < mu T .wsTrivia st := mu_cursor hstrict hm2
          obtain ⟨st', he2, hm3, hm4, _, herr2⟩ := ih .wsTrivia st1 trivial hm2 (by omega)
          exact ⟨st', he2, by omega, hm4, fun hp => by simp only [Prog] at hp,
            errsLe_trans herr1 herr2⟩
        · rw [if_neg hW]
          exact ⟨st, rfl, Nat.le_refl _, hle, fun hp => by simp only [Prog] at hp,
            errsLe_refl _ _⟩
    | expression =>
        simp only [evalP]
        have hmu1 : mu T (.binary 0) st < mu T .expression st :=
          mu_rank (by simp [rank]) (Nat.le_refl _)
        obtain ⟨st', he, hm1, hm2, hP, herr⟩ := ih (.binary 0) st trivial hle (by omega)
        exact ⟨st', he, hm1, hm2, fun hp => hP (by simpa [Prog] using hp), herr⟩
    | postfixExpr =>
        simp only [evalP]
        have hmu1 : mu T .primary st < mu T .postfixExpr st :=
          mu_rank (by simp [rank]) (Nat.le_refl _)
        obtain ⟨st1, he1, hm1, hm2, hP1, herr1⟩ := ih .primary st trivial hle (by omega)
        rw [he1, Option.some_bind]
        have hmu2 : mu T .postLoop st1 < mu T .postfixExpr st := by
          rcases Nat.lt_or_ge st.cursor st1.cursor with hlt | hge
          · exact mu_cursor hlt hm2
          · have heq : st1.cursor = st.cursor := by omega
            rw [mu, mu, heq]
            simp [rank]
        obtain ⟨st', he2, hm3, hm4, _, herr2⟩ := ih .postLoop st1 trivial hm2 (by omega)
        refine ⟨st', he2, by omega, hm4, fun hp => ?_, errsLe_trans herr1 herr2⟩
        have := hP1 (by simpa [Prog] using hp)
        omega
    | primary =>
        simp only [evalP]
        rcases hck : curKind T st with _ | k
        · refine ⟨advance T (pushError T st "Expected expression"), rfl, ?_, ?_, ?_, ?_⟩
          · have h0 : (pushError T st "Expected expression").cursor = st.cursor := rfl
            have h2 := advance_mono T (pushError T st "Expected expression")
            omega
          · exact advance_le _ _ (by rw [pushError_cursor]; exact hle)
          · intro hp
            simp only [Prog] at hp
            rw [advance_lt _ _ (by rw [pushError_cursor]; exact hp), pushError_cursor]
            omega
          · exact errsLe_trans (pushError_errs _ _ _)
              (errsLe_of_eq (advance_errors _ _))
        · have hat : atKind T st k := hck
          have hlt := atKind_lt hat
          cases k
          case Number =>
            have hc1 : (consume T .Number (withBld (.startNode .Literal) st)).cursor =
                st.cursor + 1 := consume_at hat
            refine ⟨_, rfl, ?_, ?_, fun _ => ?_, ?_⟩
            · simp only [withBld_cursor]
              omega
            · simp only [withBld_cursor]
              omega
            · simp only [withBld_cursor]
              omega
            · exact consume_withBld_errs T .Number (Builder.startNode .Literal) st
          case String =>
            have hc1 : (consume T .String (withBld (.startNode .Literal) st)).cursor =
                st.cursor + 1 := consume_at hat
            refine ⟨_, rfl, ?_, ?_, fun _ => ?_, ?_⟩
            · simp only [withBld_cursor]
              omega
            · simp only [withBld_cursor]
              omega
            · simp only [withBld_cursor]
              omega
            · exact consume_withBld_errs T .String (Builder.startNode .Literal) st
          case Ident =>
            have hc1 : (consume T .Ident st).cursor = st.cursor + 1 := consume_at hat
            exact ⟨_, rfl, by omega, by omega, fun _ => by omega, consume_errs T .Ident st⟩
          case LParen =>
            have hc1 : (consume T .LParen (withBld (.startNode .ParenExpr) st)).cursor =
                st.cursor + 1 := consume_at hat
            have hle1 : (consume T .LParen (withBld (.startNode .ParenExpr) st)).cursor ≤
                T.length := by omega
            have hmu1 : mu T .wsTrivia (consume T .LParen (withBld (.startNode .ParenExpr) st)) <
                mu T .primary st := mu_cursor (by omega) hle1
            obtain ⟨st2, he2, hn1, hn2, _, herr2⟩ := ih .wsTrivia _ trivial hle1 (by omega)
            rw [he2, Option.some_bind]
            have hmu2 : mu T .expression st2 < mu T .primary st := mu_cursor (by omega) hn2
            obtain ⟨st3, he3, hn3, hn4, _, herr3⟩ := ih .expression st2 trivial hn2 (by omega)
            rw [he3, Option.some_bind]
            have hmu3 : mu T .wsTrivia st3 < mu T .primary st := mu_cursor (by omega) hn4
            obtain ⟨st4, he4, hn5, hn6, _, herr4⟩ := ih .wsTrivia st3 trivial hn4 (by omega)
            rw [he4, Option.some_bind]
            have hn7 := consume_mono T .RParen st4
            have hn8 := consume_le T .RParen st4 hn6
            refine ⟨_, rfl, ?_, ?_, fun _ => ?_, ?_⟩
            · show st.cursor ≤ (consume T .RParen st4).cursor
              omega
            · show (consume T .RParen st4).cursor ≤ T.length
              omega
            · show st.cursor < (consume T .RParen st4).cursor
              omega
            · exact errsLe_trans (consume_withBld_errs T .LParen
                (Builder.startNode .ParenExpr) st) (errsLe_trans herr2
                (errsLe_trans herr3 (errsLe_trans herr4 (consume_errs _ _ _))))
          all_goals (
            refine ⟨advance T (pushError T st "Expected expression"), rfl, ?_, ?_, ?_, ?_⟩
            · have h0 : (pushError T st "Expected expression").cursor = st.cursor := rfl
              have h2 := advance_mono T (pushError T st "Expected expression")
              omega
            · exact advance_le _ _ (by rw [pushError_cursor]; exact hle)
            · intro hp
              simp only [Prog] at hp
              rw [advance_lt _ _ (by rw [pushError_cursor]; exact hp), pushError_cursor]
              omega
            · exact errsLe_trans (pushError_errs _ _ _)
                (errsLe_of_eq (advance_errors _ _)))
    | unary =>
        simp only [evalP]
        by_cases hM : atKind T st .Minus
        · rw [if_pos hM]
          have hc1 : (consume T .Minus (withBld (.startNode .UnaryExpr) st)).cursor =
              st.cursor + 1 := consume_at hM
          have hlt := atKind_lt hM
          have hle1 : (consume T .Minus (withBld (.startNode .UnaryExpr) st)).cursor ≤
              T.length := by omega
          have hmu1 : mu T .wsTrivia (consume T .Minus (withBld (.startNode .UnaryExpr) st)) <
              mu T .unary st := mu_cursor (by omega) hle1
          obtain ⟨st2, he2, hn1, hn2, _, herr2⟩ := ih .wsTrivia _ trivial hle1 (by omega)
          rw [he2, Option.some_bind]
          have hmu2 : mu T .unary st2 < mu T .unary st := mu_cursor (by omega) hn2
          obtain ⟨st3, he3, hn3, hn4, _, herr3⟩ := ih .unary st2 trivial hn2 (by omega)
          rw [he3, Option.some_bind]
          refine ⟨_, rfl, ?_, ?_, fun _ => ?_, ?_⟩
          · show st.cursor ≤ (withBld Builder.finishNode st3).cursor
            rw [withBld_cursor]
            omega
          · show (withBld Builder.finishNode st3).cursor ≤ T.length
            rw [withBld_cursor]
            omega
          · show st.cursor < (withBld Builder.finishNode st3).cursor
            rw [withBld_cursor]
            omega
          · exact errsLe_trans (consume_withBld_errs T .Minus
              (Builder.startNode .UnaryExpr) st) (errsLe_trans herr2 herr3)
        · rw [if_neg hM]
          by_cases hP : atKind T st .Plus
          · rw [if_pos hP]
            have hc1 : (consume T .Plus (withBld (.startNode .UnaryExpr) st)).cursor =
                st.cursor + 1 := consume_at hP
            have hlt := atKind_lt hP
            have hle1 : (consume T .Plus (withBld (.startNode .UnaryExpr) st)).cursor ≤
                T.length := by omega
            have hmu1 : mu T .wsTrivia (consume T .Plus (withBld (.startNode .UnaryExpr) st)) <
                mu T .unary st := mu_cursor (by omega) hle1
            obtain ⟨st2, he2, hn1, hn2, _, herr2⟩ := ih .wsTrivia _ trivial hle1 (by omega)
            rw [he2, Option.some_bind]
            have hmu2 : mu T .unary st2 < mu T .unary st := mu_cursor (by omega) hn2
            obtain ⟨st3, he3, hn3, hn4, _, herr3⟩ := ih .unary st2 trivial hn2 (by omega)
            rw [he3, Option.some_bind]
            refine ⟨_, rfl, ?_, ?_, fun _ => ?_, ?_⟩
            · show st.cursor ≤ (withBld Builder.finishNode st3).cursor
              rw [withBld_cursor]
              omega
            · show (withBld Builder.finishNode st3).cursor ≤ T.length
              rw [withBld_cursor]
              omega
            · show st.cursor < (withBld Builder.finishNode st3).cursor
              rw [withBld_cursor]
              omega
            · exact errsLe_trans (consume_withBld_errs T .Plus
                (Builder.startNode .UnaryExpr) st) (errsLe_trans herr2 herr3)
          · rw [if_neg hP]
            have hmu1 : mu T .postfixExpr st < mu T .unary st :=
              mu_rank (by simp [rank]) (Nat.le_refl _)
            obtain ⟨st', he, hm1, hm2, hPr, herr⟩ :=
              ih .postfixExpr st trivial hle (by omega)
            exact ⟨st', he, hm1, hm2, fun hp => hPr (by simpa [Prog] using hp), herr⟩
    | binary min =>
        simp only [evalP]
        have hmu1 : mu T .unary st < mu T (.binary min) st :=
          mu_rank (by simp [rank]) (Nat.le_refl _)
        obtain ⟨st1, he1, hm1, hm2, hP1, herr1⟩ := ih .unary st trivial hle (by omega)
        rw [he1, Option.some_bind]
        have hmu2 : mu T .wsTrivia st1 < mu T (.binary min) st := mu_rank (by simp [rank]) hm1
        obtain ⟨st2, he2, hm3, hm4, _, herr2⟩ := ih .wsTrivia st1 trivial hm2 (by omega)
        rw [he2, Option.some_bind]
        have hmu3 : mu T (.binLoop min) st2 < mu T (.binary min) st :=
          mu_rank (by simp [rank]) (by omega)
        obtain ⟨st', he3, hm5, hm6, _, herr3⟩ := ih (.binLoop min) st2 trivial hm4 (by omega)
        refine ⟨st', he3, by omega, hm6, fun hp => ?_, errsLe_trans herr1
          (errsLe_trans herr2 herr3)⟩
        have := hP1 (by simpa [Prog] using hp)
        omega
    | binLoop min =>
        simp only [evalP]
        rcases hop : opPrec (curKind T st) with _ | p
        · exact ⟨st, rfl, Nat.le_refl _, hle, fun hp => by simp only [Prog] at hp,
            errsLe_refl _ _⟩
        · dsimp only
          by_cases hpm : p < min
          · rw [if_pos hpm]
            exact ⟨st, rfl, Nat.le_refl _, hle, fun hp => by simp only [Prog] at hp,
              errsLe_refl _ _⟩
          · rw [if_neg hpm]
            obtain ⟨k, hk, hbin⟩ := opPrec_binop hop
            have hst1 : consumeIfBinOp T st = consume T k st := by
              unfold consumeIfBinOp
              rw [hk]
              exact if_pos hbin
            rw [hst1]
            have hat : atKind T st k := hk
            have hlt := atKind_lt hat
            have hc1 : (consume T k st).cursor = st.cursor + 1 := consume_at hat
            have hle1 : (consume T k st).cursor ≤ T.length := consume_le _ _ _ hle
            have hmu1 : mu T .wsTrivia (consume T k st) < mu T (.binLoop min) st :=
              mu_cursor (by omega) hle1
            obtain ⟨st2, he2, hn1, hn2, _, herr2⟩ := ih .wsTrivia _ trivial hle1 (by omega)
            rw [he2, Option.some_bind]
            have hmu2 : mu T (.binary (p + 1)) st2 < mu T (.binLoop min) st :=
              mu_cursor (by omega) hn2
            obtain ⟨st3, he3, hn3, hn4, _, herr3⟩ :=
              ih (.binary (p + 1)) st2 trivial hn2 (by omega)
            rw [he3, Option.some_bind]
            have hc4 : (withBld Builder.finishNode
                (withBld (Builder.startNodeAt (st.bld.checkpoint) .BinaryExpr) st3)).cursor =
                st3.cursor := rfl
            have hmu3 : mu T (.binLoop min) (withBld Builder.finishNode
                (withBld (Builder.startNodeAt (st.bld.checkpoint) .BinaryExpr) st3)) <
                mu T (.binLoop min) st :=
              mu_cursor (by simp only [withBld_cursor]; omega)
                (by simp only [withBld_cursor]; omega)
            obtain ⟨st', he4, hn5, hn6, _, herr4⟩ :=
              ih (.binLoop min) (withBld Builder.finishNode
                (withBld (Builder.startNodeAt (st.bld.checkpoint) .BinaryExpr) st3))
                trivial (by simp only [withBld_cursor]; omega) (by omega)
            refine ⟨st', he4, ?_, hn6, fun hp => by simp only [Prog] at hp, ?_⟩
            · rw [hc4] at hn5
              omega
            · refine errsLe_trans (consume_errs T k st) (errsLe_trans herr2
                (errsLe_trans herr3 herr4))
    | postLoop =>
        simp only [evalP]
        by_cases hL : atKind T st .LParen
        · rw [if_pos hL]
          have hmu1 : mu T .argList (withBld (.startNode .CallExpr) st) <
              mu T .postLoop st := mu_rank (by simp [rank]) (Nat.le_refl _)
          have hpre1 : Pre T .argList (withBld (.startNode .CallExpr) st) := hL
          obtain ⟨st2, he2, hn1, hn2, hP2, herr2⟩ := ih .argList _ hpre1 hle (by omega)
          rw [he2, Option.some_bind]
          have hstrict : st.cursor < st2.cursor := hP2 trivial
          have hmu2 : mu T .postLoop (withBld Builder.finishNode
              (withBld (Builder.startNodeAt
                ((withBld (Builder.startNode .CallExpr) st).bld.checkpoint) .CallExpr) st2)) <
              mu T .postLoop st :=
            mu_cursor (by simp only [withBld_cursor]; omega)
              (by simp only [withBld_cursor]; omega)
          obtain ⟨st', he3, hn3, hn4, _, herr3⟩ := ih .postLoop
            (withBld Builder.finishNode (withBld (Builder.startNodeAt
              ((withBld (Builder.startNode .CallExpr) st).bld.checkpoint) .CallExpr) st2))
            trivial (by simp only [withBld_cursor]; omega) (by omega)
          rw [withBld_cursor, withBld_cursor] at hn3
          refine ⟨st', he3, by omega, hn4, fun hp => by simp only [Prog] at hp,
            errsLe_trans herr2 herr3⟩
        · rw [if_neg hL]
          exact ⟨st, rfl, Nat.le_refl _, hle, fun hp => by simp only [Prog] at hp,
            errsLe_refl _ _⟩
    | argList =>
        simp only [evalP]
        have hat : atKind T st .LParen := hpre
        have hlt := atKind_lt hat
        have hc1 : (consume T .LParen (withBld (.startNode .ArgList) st)).cursor =
            st.cursor + 1 := consume_at hat
        have hle1 : (consume T .LParen (withBld (.startNode .ArgList) st)).cursor ≤
            T.length := by omega
        have hmu1 : mu T .skipTrivia (consume T .LParen (withBld (.startNode .ArgList) st)) <
            mu T .argList st := mu_cursor (by omega) hle1
        obtain ⟨st2, he2, hn1, hn2, _, herr2⟩ := ih .skipTrivia _ trivial hle1 (by omega)
        rw [he2, Option.some_bind]
        have hstep : ∃ st3, (if atKind T st2 .RParen then some st2
            else evalP T n .argLoop st2) = some st3 ∧ st2.cursor ≤ st3.cursor ∧
            st3.cursor ≤ T.length ∧ errsLe T st2.errors st3.errors := by
          by_cases hR : atKind T st2 .RParen
          · rw [if_pos hR]
            exact ⟨st2, rfl, Nat.le_refl _, hn2, errsLe_refl _ _⟩
          · rw [if_neg hR]
            have hmu2 : mu T .argLoop st2 < mu T .argList st := mu_cursor (by omega) hn2
            obtain ⟨st3, he3, hn3, hn4, _, herr3⟩ := ih .argLoop st2 trivial hn2 (by omega)
            exact ⟨st3, he3, hn3, hn4, herr3⟩
        obtain ⟨st3, he3, hn3, hn4, herr3⟩ := hstep
        rw [he3, Option.some_bind]
        have hn5 := consume_mono T .RParen st3
        have hn6 := consume_le T .RParen st3 hn4
        refine ⟨_, rfl, ?_, ?_, fun _ => ?_, ?_⟩
        · show st.cursor ≤ (consume T .RParen st3).cursor
          omega
        · show (consume T .RParen st3).cursor ≤ T.length
          omega
        · show st.cursor < (consume T .RParen st3).cursor
          omega
        · exact errsLe_trans (consume_withBld_errs T .LParen
            (Builder.startNode .ArgList) st) (errsLe_trans herr2
            (errsLe_trans herr3 (consume_errs _ _ _)))
    | argLoop =>
        simp only [evalP]
        have hmu1 : mu T .expression st < mu T .argLoop st :=
          mu_rank (by simp [rank]) (Nat.le_refl _)
        obtain ⟨st1, he1, hm1, hm2, _, herr1⟩ := ih .expression st trivial hle (by omega)
        rw [he1, Option.some_bind]
        have hmu2 : mu T .skipTrivia st1 < mu T .argLoop st := mu_rank (by simp [rank]) hm1
        obtain ⟨st2, he2, hm3, hm4, _, herr2⟩ := ih .skipTrivia st1 trivial hm2 (by omega)
        rw [he2, Option.some_bind]
        by_cases hC : atKind T st2 .Comma
        · rw [if_pos hC]
          have hc3 : (consume T .Comma st2).cursor = st2.cursor + 1 := consume_at hC
          have hlt2 := atKind_lt hC
          have hle3 : (consume T .Comma st2).cursor ≤ T.length := by omega
          have hmu3 : mu T .skipTrivia (consume T .Comma st2) < mu T .argLoop st :=
            mu_cursor (by omega) hle3
          obtain ⟨st4, he4, hm5, hm6, _, herr4⟩ := ih .skipTrivia _ trivial hle3 (by omega)
          rw [he4, Option.some_bind]
          have hmu4 : mu T .argLoop st4 < mu T .argLoop st := mu_cursor (by omega) hm6
          obtain ⟨st', he5, hm7, hm8, _, herr5⟩ := ih .argLoop st4 trivial hm6 (by omega)
          refine ⟨st', he5, by omega, hm8, fun hp => by simp only [Prog] at hp, ?_⟩
          exact errsLe_trans herr1 (errsLe_trans herr2 (errsLe_trans (consume_errs _ _ _)
            (errsLe_trans herr4 herr5)))
        · rw [if_neg hC]
          exact ⟨st2, rfl, by omega, hm4, fun hp => by simp only [Prog] at hp,
            errsLe_trans herr1 herr2⟩
    | paramLoop =>
        simp only [evalP]
        have hcm := consume_mono T .Ident st
        have hcl := consume_le T .Ident st hle
        have hmu1 : mu T .skipTrivia (consume T .Ident st) < mu T .paramLoop st :=
          mu_rank (by simp [rank]) hcm
        obtain ⟨st2, he2, hm1, hm2, _, herr2⟩ := ih .skipTrivia _ trivial hcl (by omega)
        rw [he2, Option.some_bind]
        by_cases hC : atKind T st2 .Comma
        · rw [if_pos hC]
          have hc3 : (consume T .Comma st2).cursor = st2.cursor + 1 := consume_at hC
          have hlt2 := atKind_lt hC
          have hle3 : (consume T .Comma st2).cursor ≤ T.length := by omega
          have hmu3 : mu T .skipTrivia (consume T .Comma st2) < mu T .paramLoop st :=
            mu_cursor (by omega) hle3
          obtain ⟨st4, he4, hm5, hm6, _, herr4⟩ := ih .skipTrivia _ trivial hle3 (by omega)
          rw [he4, Option.some_bind]
          have hmu4 : mu T .paramLoop st4 < mu T .paramLoop st := mu_cursor (by omega) hm6
          obtain ⟨st', he5, hm7, hm8, _, herr5⟩ := ih .paramLoop st4 trivial hm6 (by omega)
          refine ⟨st', he5, by omega, hm8, fun hp => by simp only [Prog] at hp, ?_⟩
          exact errsLe_trans (consume_errs _ _ _) (errsLe_trans herr2
            (errsLe_trans (consume_errs _ _ _) (errsLe_trans herr4 herr5)))
        · rw [if_neg hC]
          exact ⟨st2, rfl, by omega, hm2, fun hp => by simp only [Prog] at hp,
            errsLe_trans (consume_errs _ _ _) herr2⟩
    | paramList =>
        simp only [evalP]
        have hw : (withBld (Builder.startNode .ParamList) st).cursor = st.cursor := rfl
        have hcm := consume_mono T .LParen (withBld (.startNode .ParamList) st)
        have hcl : (consume T .LParen (withBld (.startNode .ParamList) st)).cursor ≤
            T.length := consume_le _ _ _ hle
        have hmu1 : mu T .skipTrivia (consume T .LParen (withBld (.startNode .ParamList) st)) <
            mu T .paramList st := mu_rank (by simp [rank]) hcm
        obtain ⟨st2, he2, hm1, hm2, _, herr2⟩ := ih .skipTrivia _ trivial hcl (by omega)
        rw [he2, Option.some_bind]
        have hstep : ∃ st3, (if atKind T st2 .RParen then some st2
            else evalP T n .paramLoop st2) = some st3 ∧ st2.cursor ≤ st3.cursor ∧
            st3.cursor ≤ T.length ∧ errsLe T st2.errors st3.errors := by
          by_cases hR : atKind T st2 .RParen
          · rw [if_pos hR]
            exact ⟨st2, rfl, Nat.le_refl _, hm2, errsLe_refl _ _⟩
          · rw [if_neg hR]
            have hmu2 : mu T .paramLoop st2 < mu T .paramList st :=
              mu_rank (by simp [rank]) (by omega)
            obtain ⟨st3, he3, hn3, hn4, _, herr3⟩ := ih .paramLoop st2 trivial hm2 (by omega)
            exact ⟨st3, he3, hn3, hn4, herr3⟩
        obtain ⟨st3, he3, hn3, hn4, herr3⟩ := hstep
        rw [he3, Option.some_bind]
        have hn5 := consume_mono T .RParen st3
        have hn6 := consume_le T .RParen st3 hn4
        refine ⟨_, rfl, ?_, ?_, fun hp => by simp only [Prog] at hp, ?_⟩
        · show st.cursor ≤ (consume T .RParen st3).cursor
          omega
        · show (consume T .RParen st3).cursor ≤ T.length
          omega
        · exact errsLe_trans (consume_withBld_errs T .LParen
            (Builder.startNode .ParamList) st) (errsLe_trans herr2
            (errsLe_trans herr3 (consume_errs _ _ _)))
    | exprStmt =>
        simp only [evalP]
        have hw : (withBld (Builder.startNode .ExprStmt) st).cursor = st.cursor := rfl
        have hmu1 : mu T .expression (withBld (.startNode .ExprStmt) st) <
            mu T .exprStmt st := mu_rank (by simp [rank]) (by omega)
        obtain ⟨st2, he2, hm1, hm2, hP2, herr2⟩ := ih .expression
          (withBld (Builder.startNode .ExprStmt) st) trivial (by omega) (by omega)
        rw [he2, Option.some_bind]
        have hmu2 : mu T .skipTrivia st2 < mu T .exprStmt st :=
          mu_rank (by simp [rank]) (by rw [hw] at hm1; omega)
        obtain ⟨st3, he3, hm3, hm4, _, herr3⟩ := ih .skipTrivia st2 trivial hm2 (by omega)
        rw [he3, Option.some_bind]
        have hn5 := consume_mono T .Semicolon st3
        have hn6 := consume_le T .Semicolon st3 hm4
        refine ⟨_, rfl, ?_, ?_, fun hp => ?_, ?_⟩
        · show st.cursor ≤ (withBld Builder.finishNode (consume T .Semicolon st3)).cursor
          rw [withBld_cursor]
          omega
        · show (withBld Builder.finishNode (consume T .Semicolon st3)).cursor ≤ T.length
          rw [withBld_cursor]
          omega
        · show st.cursor < (withBld Builder.finishNode (consume T .Semicolon st3)).cursor
          rw [withBld_cursor]
          have h9 : (withBld (Builder.startNode .ExprStmt) st).cursor < st2.cursor :=
            hP2 (by simp only [Prog, withBld_cursor]; simpa [Prog] using hp)
          rw [hw] at h9
          omega
        · exact errsLe_trans herr2 (errsLe_trans herr3 (consume_errs _ _ _))
    | block =>
        simp only [evalP]
        have hw : (withBld (Builder.startNode .BlockStmt) st).cursor = st.cursor := rfl
        have hcm := consume_mono T .LBrace (withBld (.startNode .BlockStmt) st)
        have hcl : (consume T .LBrace (withBld (.startNode .BlockStmt) st)).cursor ≤
            T.length := consume_le _ _ _ hle
        have hmu1 : mu T .blockLoop (consume T .LBrace (withBld (.startNode .BlockStmt) st)) <
            mu T .block st := mu_rank (by simp [rank]) hcm
        obtain ⟨st2, he2, hm1, hm2, _, herr2⟩ := ih .blockLoop _ trivial hcl (by omega)
        rw [he2, Option.some_bind]
        have hn5 := consume_mono T .RBrace st2
        have hn6 := consume_le T .RBrace st2 hm2
        refine ⟨_, rfl, ?_, ?_, fun hp => by simp only [Prog] at hp, ?_⟩
        · show st.cursor ≤ (withBld Builder.finishNode (consume T .RBrace st2)).cursor
          rw [withBld_cursor]
          omega
        · show (withBld Builder.finishNode (consume T .RBrace st2)).cursor ≤ T.length
          rw [withBld_cursor]
          omega
        · exact errsLe_trans (consume_withBld_errs T .LBrace
            (Builder.startNode .BlockStmt) st) (errsLe_trans herr2 (consume_errs _ _ _))
    | blockLoop =>
        simp only [evalP]
        by_cases hcond : ¬ atEnd T st ∧ ¬ atKind T st .RBrace
        · rw [if_pos hcond]
          have hlt : st.cursor < T.length := by
            have := hcond.1
            simp only [atEnd, not_le] at this
            exact this
          have hstep : ∃ st1, (if atTriv T st then evalP T n .trivia st
              else evalP T n .statement st) = some st1 ∧ st.cursor < st1.cursor ∧
              st1.cursor ≤ T.length ∧ errsLe T st.errors st1.errors := by
            by_cases hTr : atTriv T st
            · rw [if_pos hTr]
              have hmu1 : mu T .trivia st < mu T .blockLoop st :=
                mu_rank (by simp [rank]) (Nat.le_refl _)
              obtain ⟨st1, he1, hm1, hm2, hP1, herr1⟩ := ih .trivia st trivial hle (by omega)
              exact ⟨st1, he1, hP1 hTr, hm2, herr1⟩
            · rw [if_neg hTr]
              have hmu1 : mu T .statement st < mu T .blockLoop st :=
                mu_rank (by simp [rank]) (Nat.le_refl _)
              obtain ⟨st1, he1, hm1, hm2, hP1, herr1⟩ :=
                ih .statement st trivial hle (by omega)
              exact ⟨st1, he1, hP1 hlt, hm2, herr1⟩
          obtain ⟨st1, he1, hm1, hm2, herr1⟩ := hstep
          rw [he1, Option.some_bind]
          have hmu2 : mu T .blockLoop st1 < mu T .blockLoop st := mu_cursor hm1 hm2
          obtain ⟨st', he2, hm3, hm4, _, herr2⟩ := ih .blockLoop st1 trivial hm2 (by omega)
          exact ⟨st', he2, by omega, hm4, fun hp => by simp only [Prog] at hp,
            errsLe_trans herr1 herr2⟩
        · rw [if_neg hcond]
          exact ⟨st, rfl, Nat.le_refl _, hle, fun hp => by simp only [Prog] at hp,
            errsLe_refl _ _⟩
    | parseLoop =>
        simp only [evalP]
        by_cases hcond : ¬ atEnd T st
        · rw [if_pos hcond]
          have hlt : st.cursor < T.length := by
            simp only [atEnd, not_le] at hcond
            exact hcond
          have hstep : ∃ st1, (if atTriv T st then evalP T n .trivia st
              else evalP T n .statement st) = some st1 ∧ st.cursor < st1.cursor ∧
              st1.cursor ≤ T.length ∧ errsLe T st.errors st1.errors := by
            by_cases hTr : atTriv T st
            · rw [if_pos hTr]
              have hmu1 : mu T .trivia st < mu T .parseLoop st :=
                mu_rank (by simp [rank]) (Nat.le_refl _)
              obtain ⟨st1, he1, hm1, hm2, hP1, herr1⟩ := ih .trivia st trivial hle (by omega)
              exact ⟨st1, he1, hP1 hTr, hm2, herr1⟩
            · rw [if_neg hTr]
              have hmu1 : mu T .statement st < mu T .parseLoop st :=
                mu_rank (by simp [rank]) (Nat.le_refl _)
              obtain ⟨st1, he1, hm1, hm2, hP1, herr1⟩ :=
                ih .statement st trivial hle (by omega)
              exact ⟨st1, he1, hP1 hlt, hm2, herr1⟩
          obtain ⟨st1, he1, hm1, hm2, herr1⟩ := hstep
          rw [he1, Option.some_bind]
          have hmu2 : mu T .parseLoop st1 < mu T .parseLoop st := mu_cursor hm1 hm2
          obtain ⟨st', he2, hm3, hm4, _, herr2⟩ := ih .parseLoop st1 trivial hm2 (by omega)
          exact ⟨st', he2, by omega, hm4, fun hp => by simp only [Prog] at hp,
            errsLe_trans herr1 herr2⟩
        · rw [if_neg hcond]
          exact ⟨st, rfl, Nat.le_refl _, hle, fun hp => by simp only [Prog] at hp,
            errsLe_refl _ _⟩
    | statement =>
        simp only [evalP]
        rcases hck : curKind T st with _ | k
        · have hmu1 : mu T .exprStmt st < mu T .statement st :=
            mu_rank (by simp [rank]) (Nat.le_refl _)
          obtain ⟨st', he, hm1, hm2, hP, herr⟩ := ih .exprStmt st trivial hle (by omega)
          exact ⟨st', he, hm1, hm2, fun hp => hP (by simpa [Prog] using hp), herr⟩
        · cases k
          case Keyword =>
            have hat : atKind T st .Keyword := hck
            have hX : ∀ c2, c2 = PCall.letStmt ∨ c2 = PCall.ifStmt ∨ c2 = PCall.whileStmt ∨
                c2 = PCall.returnStmt ∨ c2 = PCall.fnDef →
                ∃ st', evalP T n c2 st = some st' ∧ st.cursor ≤ st'.cursor ∧
                  st'.cursor ≤ T.length ∧ st.cursor < st'.cursor ∧
                  errsLe T st.errors st'.errors := by
              intro c2 hc2
              have hpre2 : Pre T c2 st := by
                rcases hc2 with rfl | rfl | rfl | rfl | rfl <;> exact hat
              have hrk : rank c2 < rank .statement := by
                rcases hc2 with rfl | rfl | rfl | rfl | rfl <;> simp [rank]
              have hmu1 : mu T c2 st < mu T .statement st := mu_rank hrk (Nat.le_refl _)
              obtain ⟨st', he, hm1, hm2, hP, herr⟩ := ih c2 st hpre2 hle (by omega)
              refine ⟨st', he, hm1, hm2, ?_, herr⟩
              rcases hc2 with rfl | rfl | rfl | rfl | rfl <;> exact hP trivial
            by_cases h1 : curText T st = some "let".data
            · rw [if_pos h1]
              obtain ⟨st', he, hm1, hm2, hm3, herr⟩ := hX .letStmt (.inl rfl)
              exact ⟨st', he, hm1, hm2, fun _ => hm3, herr⟩
            · rw [if_neg h1]
              by_cases h2 : curText T st = some "if".data
              · rw [if_pos h2]
                obtain ⟨st', he, hm1, hm2, hm3, herr⟩ := hX .ifStmt (.inr (.inl rfl))
                exact ⟨st', he, hm1, hm2, fun _ => hm3, herr⟩
              · rw [if_neg h2]
                by_cases h3 : curText T st = some "while".data
                · rw [if_pos h3]
                  obtain ⟨st', he, hm1, hm2, hm3, herr⟩ :=
                    hX .whileStmt (.inr (.inr (.inl rfl)))
                  exact ⟨st', he, hm1, hm2, fun _ => hm3, herr⟩
                · rw [if_neg h3]
                  by_cases h4 : curText T st = some "return".data
                  · rw [if_pos h4]
                    obtain ⟨st', he, hm1, hm2, hm3, herr⟩ :=
                      hX .returnStmt (.inr (.inr (.inr (.inl rfl))))
                    exact ⟨st', he, hm1, hm2, fun _ => hm3, herr⟩
                  · rw [if_neg h4]
                    by_cases h5 : curText T st = some "fn".data
                    · rw [if_pos h5]
                      obtain ⟨st', he, hm1, hm2, hm3, herr⟩ :=
                        hX .fnDef (.inr (.inr (.inr (.inr rfl))))
                      exact ⟨st', he, hm1, hm2, fun _ => hm3, herr⟩
                    · rw [if_neg h5]
                      have hmu1 : mu T .exprStmt st < mu T .statement st :=
                        mu_rank (by simp [rank]) (Nat.le_refl _)
                      obtain ⟨st', he, hm1, hm2, hP, herr⟩ :=
                        ih .exprStmt st trivial hle (by omega)
                      exact ⟨st', he, hm1, hm2, fun hp => hP (by simpa [Prog] using hp),
                        herr⟩
          all_goals (
            have hmu1 : mu T .exprStmt st < mu T .statement st :=
              mu_rank (by simp [rank]) (Nat.le_refl _)
            obtain ⟨st', he, hm1, hm2, hP, herr⟩ := ih .exprStmt st trivial hle (by omega)
            exact ⟨st', he, hm1, hm2, fun hp => hP (by simpa [Prog] using hp), herr⟩)
    | letStmt =>
        simp only [evalP]
        have hat : atKind T st .Keyword := hpre
        have hlt := atKind_lt hat
        have hc1 : (consume T .Keyword (withBld (.startNode .LetStmt) st)).cursor =
            st.cursor + 1 := consume_at hat
        have hle1 : (consume T .Keyword (withBld (.startNode .LetStmt) st)).cursor ≤
            T.length := by omega
        have hmu1 : mu T .skipTrivia (consume T .Keyword (withBld (.startNode .LetStmt) st)) <
            mu T .letStmt st := mu_cursor (by omega) hle1
        obtain ⟨st2, he2, hn1, hn2, _, herr2⟩ := ih .skipTrivia _ trivial hle1 (by omega)
        rw [he2, Option.some_bind]
        have hn2a := consume_mono T .Ident st2
        have hn2b := consume_le T .Ident st2 hn2
        have hmu2 : mu T .skipTrivia (consume T .Ident st2) < mu T .letStmt st :=
          mu_cursor (by omega) hn2b
        obtain ⟨st4, he4, hn3, hn4, _, herr4⟩ := ih .skipTrivia _ trivial hn2b (by omega)
        rw [he4, Option.some_bind]
        have hstep : ∃ st5, (if atKind T st4 .Eq then
              (evalP T n .skipTrivia (consume T .Eq st4)).bind fun b =>
              evalP T n .expression b
            else some st4) = some st5 ∧ st4.cursor ≤ st5.cursor ∧
            st5.cursor ≤ T.length ∧ errsLe T st4.errors st5.errors := by
          by_cases hEq : atKind T st4 .Eq
          · rw [if_pos hEq]
            have hc5 : (consume T .Eq st4).cursor = st4.cursor + 1 := consume_at hEq
            have hlt5 := atKind_lt hEq
            have hle5 : (consume T .Eq st4).cursor ≤ T.length := by omega
            have hmu5 : mu T .skipTrivia (consume T .Eq st4) < mu T .letStmt st :=
              mu_cursor (by omega) hle5
            obtain ⟨stb, heb, hn5, hn6, _, herrb⟩ := ih .skipTrivia _ trivial hle5 (by omega)
            rw [heb, Option.some_bind]
            have hmu6 : mu T .expression stb < mu T .letStmt st := mu_cursor (by omega) hn6
            obtain ⟨st5, he5, hn7, hn8, _, herr5⟩ := ih .expression stb trivial hn6 (by omega)
            exact ⟨st5, he5, by omega, hn8,
              errsLe_trans (consume_errs _ _ _) (errsLe_trans herrb herr5)⟩
          · rw [if_neg hEq]
            exact ⟨st4, rfl, Nat.le_refl _, hn4, errsLe_refl _ _⟩
        obtain ⟨st5, he5, hn5, hn6, herr5⟩ := hstep
        rw [he5, Option.some_bind]
        have hmu3 : mu T .skipTrivia st5 < mu T .letStmt st := mu_cursor (by omega) hn6
        obtain ⟨st6, he6, hn7, hn8, _, herr6⟩ := ih .skipTrivia st5 trivial hn6 (by omega)
        rw [he6, Option.some_bind]
        have hn9 := consume_mono T .Semicolon st6
        have hn10 := consume_le T .Semicolon st6 hn8
        refine ⟨_, rfl, ?_, ?_, fun _ => ?_, ?_⟩
        · show st.cursor ≤ (withBld Builder.finishNode (consume T .Semicolon st6)).cursor
          rw [withBld_cursor]
          omega
        · show (withBld Builder.finishNode (consume T .Semicolon st6)).cursor ≤ T.length
          rw [withBld_cursor]
          omega
        · show st.cursor < (withBld Builder.finishNode (consume T .Semicolon st6)).cursor
          rw [withBld_cursor]
          omega
        · exact errsLe_trans (consume_withBld_errs T .Keyword
            (Builder.startNode .LetStmt) st) (errsLe_trans herr2
            (errsLe_trans (consume_errs _ _ _) (errsLe_trans herr4 (errsLe_trans herr5
              (errsLe_trans herr6 (consume_errs _ _ _))))))
    | ifStmt =>
        simp only [evalP]
        have hat : atKind T st .Keyword := hpre
        have hlt := atKind_lt hat
        have hc1 : (consume T .Keyword (withBld (.startNode .IfStmt) st)).cursor =
            st.cursor + 1 := consume_at hat
        have hle1 : (consume T .Keyword (withBld (.startNode .IfStmt) st)).cursor ≤
            T.length := by omega
        have hmu1 : mu T .skipTrivia (consume T .Keyword (withBld (.startNode .IfStmt) st)) <
            mu T .ifStmt st := mu_cursor (by omega) hle1
        obtain ⟨st2, he2, hn1, hn2, _, herr2⟩ := ih .skipTrivia _ trivial hle1 (by omega)
        rw [he2, Option.some_bind]
        have hmu2 : mu T .expression st2 < mu T .ifStmt st := mu_cursor (by omega) hn2
        obtain ⟨st3, he3, hn3, hn4, _, herr3⟩ := ih .expression st2 trivial hn2 (by omega)
        rw [he3, Option.some_bind]
        have hmu3 : mu T .skipTrivia st3 < mu T .ifStmt st := mu_cursor (by omega) hn4
        obtain ⟨st4, he4, hn5, hn6, _, herr4⟩ := ih .skipTrivia st3 trivial hn4 (by omega)
        rw [he4, Option.some_bind]
        have hmu4 : mu T .block st4 < mu T .ifStmt st := mu_cursor (by omega) hn6
        obtain ⟨st5, he5, hn7, hn8, _, herr5⟩ := ih .block st4 trivial hn6 (by omega)
        rw [he5, Option.some_bind]
        have hstep : ∃ st6, (if atKw T st5 ("else".data) then
              (evalP T n .skipTrivia (consume T .Keyword st5)).bind fun b =>
              if atKw T b ("if".data) then evalP T n .ifStmt b
              else evalP T n .block b
            else some st5) = some st6 ∧ st5.cursor ≤ st6.cursor ∧
            st6.cursor ≤ T.length ∧ errsLe T st5.errors st6.errors := by
          by_cases hE : atKw T st5 ("else".data)
          · rw [if_pos hE]
            have hc5 : (consume T .Keyword st5).cursor = st5.cursor + 1 := consume_at hE.1
            have hlt5 := atKind_lt hE.1
            have hle5 : (consume T .Keyword st5).cursor ≤ T.length := by omega
            have hmu5 : mu T .skipTrivia (consume T .Keyword st5) < mu T .ifStmt st :=
              mu_cursor (by omega) hle5
            obtain ⟨stb, heb, hn9, hn10, _, herrb⟩ := ih .skipTrivia _ trivial hle5 (by omega)
            rw [heb, Option.some_bind]
            by_cases hI : atKw T stb ("if".data)
            · rw [if_pos hI]
              have hmu6 : mu T .ifStmt stb < mu T .ifStmt st := mu_cursor (by omega) hn10
              obtain ⟨st6, he6, hn11, hn12, _, herr6⟩ := ih .ifStmt stb hI.1 hn10 (by omega)
              exact ⟨st6, he6, by omega, hn12,
                errsLe_trans (consume_errs _ _ _) (errsLe_trans herrb herr6)⟩
            · rw [if_neg hI]
              have hmu6 : mu T .block stb < mu T .ifStmt st := mu_cursor (by omega) hn10
              obtain ⟨st6, he6, hn11, hn12, _, herr6⟩ := ih .block stb trivial hn10 (by omega)
              exact ⟨st6, he6, by omega, hn12,
                errsLe_trans (consume_errs _ _ _) (errsLe_trans herrb herr6)⟩
          · rw [if_neg hE]
            exact ⟨st5, rfl, Nat.le_refl _, hn8, errsLe_refl _ _⟩
        obtain ⟨st6, he6, hn11, hn12, herr6⟩ := hstep
        rw [he6, Option.some_bind]
        refine ⟨_, rfl, ?_, ?_, fun _ => ?_, ?_⟩
        · show st.cursor ≤ (withBld Builder.finishNode st6).cursor
          rw [withBld_cursor]
          omega
        · show (withBld Builder.finishNode st6).cursor ≤ T.length
          rw [withBld_cursor]
          omega
        · show st.cursor < (withBld Builder.finishNode st6).cursor
          rw [withBld_cursor]
          omega
        · exact errsLe_trans (consume_withBld_errs T .Keyword
            (Builder.startNode .IfStmt) st) (errsLe_trans herr2
            (errsLe_trans herr3 (errsLe_trans herr4 (errsLe_trans herr5 herr6))))
    | whileStmt =>
        simp only [evalP]
        have hat : atKind T st .Keyword := hpre
        have hlt := atKind_lt hat
        have hc1 : (consume T .Keyword (withBld (.startNode .WhileStmt) st)).cursor =
            st.cursor + 1 := consume_at hat
        have hle1 : (consume T .Keyword (withBld (.startNode .WhileStmt) st)).cursor ≤
            T.length := by omega
        have hmu1 : mu T .skipTrivia (consume T .Keyword (withBld (.startNode .WhileStmt) st)) <
            mu T .whileStmt st := mu_cursor (by omega) hle1
        obtain ⟨st2, he2, hn1, hn2, _, herr2⟩ := ih .skipTrivia _ trivial hle1 (by omega)
        rw [he2, Option.some_bind]
        have hmu2 : mu T .expression st2 < mu T .whileStmt st := mu_cursor (by omega) hn2
        obtain ⟨st3, he3, hn3, hn4, _, herr3⟩ := ih .expression st2 trivial hn2 (by omega)
        rw [he3, Option.some_bind]
        have hmu3 : mu T .skipTrivia st3 < mu T .whileStmt st := mu_cursor (by omega) hn4
        obtain ⟨st4, he4, hn5, hn6, _, herr4⟩ := ih .skipTrivia st3 trivial hn4 (by omega)
        rw [he4, Option.some_bind]
        have hmu4 : mu T .block st4 < mu T .whileStmt st := mu_cursor (by omega) hn6
        obtain ⟨st5, he5, hn7, hn8, _, herr5⟩ := ih .block st4 trivial hn6 (by omega)
        rw [he5, Option.some_bind]
        refine ⟨_, rfl, ?_, ?_, fun _ => ?_, ?_⟩
        · show st.cursor ≤ (withBld Builder.finishNode st5).cursor
          rw [withBld_cursor]
          omega
        · show (withBld Builder.finishNode st5).cursor ≤ T.length
          rw [withBld_cursor]
          omega
        · show st.cursor < (withBld Builder.finishNode st5).cursor
          rw [withBld_cursor]
          omega
        · exact errsLe_trans (consume_withBld_errs T .Keyword
            (Builder.startNode .WhileStmt) st) (errsLe_trans herr2
            (errsLe_trans herr3 (errsLe_trans herr4 herr5)))
    | returnStmt =>
        simp only [evalP]
        have hat : atKind T st .Keyword := hpre
        have hlt := atKind_lt hat
        have hc1 : (consume T .Keyword (withBld (.startNode .ReturnStmt) st)).cursor =
            st.cursor + 1 := consume_at hat
        have hle1 : (consume T .Keyword (withBld (.startNode .ReturnStmt) st)).cursor ≤
            T.length := by omega
        have hmu1 : mu T .skipTrivia (consume T .Keyword (withBld (.startNode .ReturnStmt) st)) <
            mu T .returnStmt st := mu_cursor (by omega) hle1
        obtain ⟨st2, he2, hn1, hn2, _, herr2⟩ := ih .skipTrivia _ trivial hle1 (by omega)
        rw [he2, Option.some_bind]
        have hstep : ∃ st3, (if atKind T st2 .Semicolon then some st2
            else evalP T n .expression st2) = some st3 ∧ st2.cursor ≤ st3.cursor ∧
            st3.cursor ≤ T.length ∧ errsLe T st2.errors st3.errors := by
          by_cases hS : atKind T st2 .Semicolon
          · rw [if_pos hS]
            exact ⟨st2, rfl, Nat.le_refl _, hn2, errsLe_refl _ _⟩
          · rw [if_neg hS]
            have hmu2 : mu T .expression st2 < mu T .returnStmt st := mu_cursor (by omega) hn2
            obtain ⟨st3, he3, hn3, hn4, _, herr3⟩ := ih .expression st2 trivial hn2 (by omega)
            exact ⟨st3, he3, hn3, hn4, herr3⟩
        obtain ⟨st3, he3, hn3, hn4, herr3⟩ := hstep
        rw [he3, Option.some_bind]
        have hmu3 : mu T .skipTrivia st3 < mu T .returnStmt st := mu_cursor (by omega) hn4
        obtain ⟨st4, he4, hn5, hn6, _, herr4⟩ := ih .skipTrivia st3 trivial hn4 (by omega)
        rw [he4, Option.some_bind]
        have hn9 := consume_mono T .Semicolon st4
        have hn10 := consume_le T .Semicolon st4 hn6
        refine ⟨_, rfl, ?_, ?_, fun _ => ?_, ?_⟩
        · show st.cursor ≤ (withBld Builder.finishNode (consume T .Semicolon st4)).cursor
          rw [withBld_cursor]
          omega
        · show (withBld Builder.finishNode (consume T .Semicolon st4)).cursor ≤ T.length
          rw [withBld_cursor]
          omega
        · show st.cursor < (withBld Builder.finishNode (consume T .Semicolon st4)).cursor
          rw [withBld_cursor]
          omega
        · exact errsLe_trans (consume_withBld_errs T .Keyword
            (Builder.startNode .ReturnStmt) st) (errsLe_trans herr2
            (errsLe_trans herr3 (errsLe_trans herr4 (consume_errs _ _ _))))
    | fnDef =>
        simp only [evalP]
        have hat : atKind T st .Keyword := hpre
        have hlt := atKind_lt hat
        have hc1 : (consume T .Keyword (withBld (.startNode .FnDef) st)).cursor =
            st.cursor + 1 := consume_at hat
        have hle1 : (consume T .Keyword (withBld (.startNode .FnDef) st)).cursor ≤
            T.length := by omega
        have hmu1 : mu T .skipTrivia (consume T .Keyword (withBld (.startNode .FnDef) st)) <
            mu T .fnDef st := mu_cursor (by omega) hle1
        obtain ⟨st2, he2, hn1, hn2, _, herr2⟩ := ih .skipTrivia _ trivial hle1 (by omega)
        rw [he2, Option.some_bind]
        have hn2a := consume_mono T .Ident st2
        have hn2b := consume_le T .Ident st2 hn2
        have hmu2 : mu T .skipTrivia (consume T .Ident st2) < mu T .fnDef st :=
          mu_cursor (by omega) hn2b
        obtain ⟨st4, he4, hn3, hn4, _, herr4⟩ := ih .skipTrivia _ trivial hn2b (by omega)
        rw [he4, Option.some_bind]
        have hmu3 : mu T .paramList st4 < mu T .fnDef st := mu_cursor (by omega) hn4
        obtain ⟨st5, he5, hn5, hn6, _, herr5⟩ := ih .paramList st4 trivial hn4 (by omega)
        rw [he5, Option.some_bind]
        have hmu4 : mu T .skipTrivia st5 < mu T .fnDef st := mu_cursor (by omega) hn6
        obtain ⟨st6, he6, hn7, hn8, _, herr6⟩ := ih .skipTrivia st5 trivial hn6 (by omega)
        rw [he6, Option.some_bind]
        have hmu5 : mu T .block st6 < mu T .fnDef st := mu_cursor (by omega) hn8
        obtain ⟨st7, he7, hn9, hn10, _, herr7⟩ := ih .block st6 trivial hn8 (by omega)
        rw [he7, Option.some_bind]
        refine ⟨_, rfl, ?_, ?_, fun _ => ?_, ?_⟩
        · show st.cursor ≤ (withBld Builder.finishNode st7).cursor
          rw [withBld_cursor]
          omega
        · show (withBld Builder.finishNode st7).cursor ≤ T.length
          rw [withBld_cursor]
          omega
        · show st.cursor < (withBld Builder.finishNode st7).cursor
          rw [withBld_cursor]
          omega
        · exact errsLe_trans (consume_withBld_errs T .Keyword
            (Builder.startNode .FnDef) st) (errsLe_trans herr2
            (errsLe_trans (consume_errs _ _ _) (errsLe_trans herr4 (errsLe_trans herr5
              (errsLe_trans herr6 herr7)))))

/-! ## Parser claims resting on the adequacy theorem -/

/-- C6: parse termination — for every input string, including malformed
ones, `Parser::parse` over `tokenize s` terminates: the fuelled
interpreter completes within `parseFuel` steps and yields a result. -/
theorem parse_terminates (s : String) : ∃ r, parseText s = some r := by
  obtain ⟨st', he, _⟩ := evalP_spec (tokenize s) (parseFuel (tokenize s)) .parseLoop
    ⟨0, Builder.startNode .Root Builder.empty, []⟩ trivial (Nat.zero_le _)
    (by unfold mu parseFuel; simp [rank]; omega)
  unfold parseText parseTokens
  rw [he]
  exact ⟨_, rfl⟩

/-- C10: every diagnostic the parser records has a zero-width range
(start = stop) anchored at the offset of the token at the cursor when it
was recorded — or at offset 0 when the cursor is past the last token
(never at the end of the text). -/
theorem parse_error_ranges_empty (s : String) (r : ParseResult)
    (hr : parseText s = some r) :
    ∀ e ∈ r.errors, e.range.start = e.range.stop ∧
      (e.range.start = 0 ∨ ∃ tok ∈ tokenize s, tok.offset = e.range.start) := by
  obtain ⟨st', he, _, _, _, herr⟩ := evalP_spec (tokenize s) (parseFuel (tokenize s))
    .parseLoop ⟨0, Builder.startNode .Root Builder.empty, []⟩ trivial (Nat.zero_le _)
    (by unfold mu parseFuel; simp [rank]; omega)
  unfold parseText parseTokens at hr
  rw [he] at hr
  simp only [Option.map_some', Option.some.injEq] at hr
  intro e hee
  have hee2 : e ∈ st'.errors := by rw [← hr] at hee; exact hee
  rcases herr e hee2 with h | h
  · exact absurd h (List.not_mem_nil e)
  · exact h

/-- Witness for C10 at a concrete input and error. -/
theorem parse_error_ranges_empty_witness :
    (⟨"Expected expression", ⟨0, 0⟩⟩ : ParseError).range.start =
      (⟨"Expected expression", ⟨0, 0⟩⟩ : ParseError).range.stop ∧
    ((⟨"Expected expression", ⟨0, 0⟩⟩ : ParseError).range.start = 0 ∨
      ∃ tok ∈ tokenize "(",
        tok.offset = (⟨"Expected expression", ⟨0, 0⟩⟩ : ParseError).range.start) :=
  parse_error_ranges_empty "("
    ⟨some (GreenElement.nd .Root (gl
      [GreenElement.nd .ExprStmt (gl
        [GreenElement.nd .ParenExpr (gl [GreenElement.tk .LParen ['(']])])])),
     [⟨"Expected expression", ⟨0, 0⟩⟩, ⟨"Expected RParen", ⟨0, 0⟩⟩,
      ⟨"Expected Semicolon", ⟨0, 0⟩⟩]⟩
    (by decide) ⟨"Expected expression", ⟨0, 0⟩⟩ (by decide)

/-- Witness for C5 at a concrete reparser, edit and text. -/
theorem reparse_equals_full_parse_witness :
    (IncrementalReparser.ofTree none).reparse "let x = 1;" = parseText "let x = 1;" ∧
    (IncrementalReparser.ofTree none).reparse "let x = 1;" =
      ((IncrementalReparser.ofTree none).addEdit ⟨⟨8, 9⟩, ['2']⟩).reparse "let x = 1;" :=
  reparse_equals_full_parse _ _ _

/-- Witness for C6 at a concrete malformed input. -/
theorem parse_terminates_witness : ∃ r, parseText "x y z" = some r :=
  parse_terminates "x y z"
